import Mathlib

set_option maxRecDepth 100000

/-!
Verification of the Aho-Corasick multi-pattern matcher (aho-corasick.py).

The Python class `AhoCorasick` is embedded shallowly:
  * `trie`   : `List (List (Char × Nat))` — one association list per node,
               mirroring the Python `List[Dict[str, int]]` (insertion order kept);
  * `fail`   : `List Nat` — the failure link of each node;
  * `output` : `List (List Nat)` — the pattern indices ending at each node.

`build_trie`, `build_fail_links` and `search` follow the Python source
statement by statement; unbounded `while` loops are given explicit fuel
(always at least the number of nodes, which bounds every failure chain).
-/

namespace AhoCorasick

/-- Lookup in an association list, mirroring a Python dict probe
(`character in self.trie[node]` / `self.trie[node].get(character, 0)`). -/
def lookupA : List (Char × Nat) → Char → Option Nat
  | [], _ => none
  | (k, v) :: rest, c => if k = c then some v else lookupA rest c

/-- The three mutable tables of the Python class during construction. -/
structure TrieSt where
  trie : List (List (Char × Nat))
  fail : List Nat
  output : List (List Nat)

/-- The inner character loop of `build_trie`: walk the trie from `node`,
allocating fresh nodes (`trie[node][character] = len(self.trie)` etc.)
for missing edges.  Returns the updated tables and the terminal node. -/
def insertChars (st : TrieSt) (node : Nat) : List Char → TrieSt × Nat
  | [] => (st, node)
  | c :: rest =>
    match lookupA (st.trie.getD node []) c with
    | some child => insertChars st child rest
    | none =>
      let fresh := st.trie.length
      insertChars
        { trie := (st.trie.set node ((st.trie.getD node []) ++ [(c, fresh)])) ++ [[]],
          fail := st.fail ++ [0],
          output := st.output ++ [[]] } fresh rest

/-- One iteration of the pattern loop of `build_trie`: insert pattern `p`
with index `k` and append `k` to the terminal node's output list. -/
def insertPattern (st : TrieSt) (k : Nat) (p : List Char) : TrieSt :=
  let r := insertChars st 0 p
  { r.1 with output := r.1.output.set r.2 ((r.1.output.getD r.2 []) ++ [k]) }

/-- The `enumerate(self.patterns)` loop of `build_trie`. -/
def insertAll (st : TrieSt) (k : Nat) : List (List Char) → TrieSt
  | [] => st
  | p :: rest => insertAll (insertPattern st k p) (k + 1) rest

/-- `AhoCorasick.build_trie`: start from the one-node tables
(`trie = [{}]`, `fail = [0]`, `output = [[]]`) and insert every pattern. -/
def build_trie (patterns : List (List Char)) : TrieSt :=
  insertAll { trie := [[]], fail := [0], output := [[]] } 0 patterns

/-- `string.printable` from CPython, in its exact order
(digits, lowercase, uppercase, punctuation, whitespace). -/
def printable : List Char :=
  "0123456789abcdefghijklmnopqrstuvwxyzABCDEFGHIJKLMNOPQRSTUVWXYZ!\"#$%&\x27()*+,-./:;<=>?@[\\]^_\x60\x7b|\x7d~ \t\n\r\x0b\x0c".toList

/-- Lines 47-50 of the source: wire every printable character that is not a
real root edge to the root itself (`self.trie[0][character] = 0`). -/
def wireRoot (row : List (Char × Nat)) : List (Char × Nat) :=
  printable.foldl (fun r c => if (lookupA r c).isSome then r else r ++ [(c, 0)]) row

/-- The `while fail_state != 0 and character not in self.trie[fail_state]`
loop (also the analogous loop of `search`), with explicit fuel. -/
def walkFail (trie : List (List (Char × Nat))) (fail : List Nat) :
    Nat → Nat → Char → Nat
  | 0, s, _ => s
  | fuel + 1, s, c =>
    if s ≠ 0 ∧ lookupA (trie.getD s []) c = none then
      walkFail trie fail fuel (fail.getD s 0) c
    else s

/-- The body of the BFS `while queue` loop for one dequeued node `current`:
for each child edge, compute its failure link and chain its outputs
(`self.output[child].extend(self.output[fail_state])`); returns the updated
tables and the children to enqueue, in edge order. -/
def procChildren (st : TrieSt) (current : Nat) :
    List (Char × Nat) → TrieSt × List Nat
  | [] => (st, [])
  | (c, child) :: rest =>
    let stop := walkFail st.trie st.fail st.trie.length (st.fail.getD current 0) c
    let fs := (lookupA (st.trie.getD stop []) c).getD 0
    let st' : TrieSt :=
      { st with
        fail := st.fail.set child fs,
        output := st.output.set child ((st.output.getD child []) ++ (st.output.getD fs [])) }
    let r := procChildren st' current rest
    (r.1, child :: r.2)

/-- The BFS `while queue` loop.  The fuel is the node count: every node is
enqueued at most once (the trie is a tree), so the queue always empties
before the fuel does. -/
def bfs (st : TrieSt) : Nat → List Nat → TrieSt
  | _, [] => st
  | 0, _ :: _ => st
  | fuel + 1, current :: rest =>
    let r := procChildren st current (st.trie.getD current [])
    bfs r.1 fuel (rest ++ r.2)

/-- `AhoCorasick.build_fail_links`: seed the queue with the root's children
(their failure link is the root), wire the printable alphabet at the root,
then run the BFS. -/
def build_fail_links (st : TrieSt) : TrieSt :=
  let rootRow := st.trie.getD 0 []
  let st' : TrieSt :=
    { st with
      fail := rootRow.foldl (fun f p => f.set p.2 0) st.fail,
      trie := st.trie.set 0 (wireRoot rootRow) }
  bfs st' st'.trie.length (rootRow.map Prod.snd)

/-- The finished automaton (`self.patterns`, `self.trie`, `self.fail`,
`self.output` after `__init__` returns). -/
structure AC where
  patterns : List (List Char)
  trie : List (List (Char × Nat))
  fail : List Nat
  output : List (List Nat)

/-- `AhoCorasick.__init__`: build the trie, then the failure links.
The constructor contains no validation and no error path. -/
def build (patterns : List (List Char)) : AC :=
  let st1 := build_trie patterns
  let st2 := build_fail_links st1
  ⟨patterns, st2.trie, st2.fail, st2.output⟩

/-- One transition of `search` on character `c` from state `node`:
the failure walk followed by `self.trie[node].get(character, 0)`. -/
def step (ac : AC) (node : Nat) (c : Char) : Nat :=
  (lookupA (ac.trie.getD (walkFail ac.trie ac.fail ac.trie.length node c) []) c).getD 0

/-- The matches emitted at one text position: for every `pattern_index` in
`self.output[node]`, the pair `(position - len(pattern) + 1, pattern_index)`.
Start offsets are integers, as in Python. -/
def emitAt (ac : AC) (node : Nat) (pos : Nat) : List (Int × Nat) :=
  (ac.output.getD node []).map
    (fun k => ((pos : Int) - ((ac.patterns.getD k []).length : Int) + 1, k))

/-- The `for position, character in enumerate(text)` loop of `search`. -/
def searchGo (ac : AC) : Nat → Nat → List Char → List (Int × Nat)
  | _, _, [] => []
  | node, pos, c :: rest =>
    let node' := step ac node c
    emitAt ac node' pos ++ searchGo ac node' (pos + 1) rest

/-- `AhoCorasick.search`. -/
def search (ac : AC) (text : List Char) : List (Int × Nat) :=
  searchGo ac 0 0 text

/-- The automaton state after consuming a piece of text (the value of the
`node` variable of `search`). -/
def stateGo (ac : AC) (node : Nat) : List Char → Nat
  | [] => node
  | c :: rest => stateGo ac (step ac node c) rest

/-- `p` occurs in `t` as a contiguous substring starting at offset `s`. -/
def occursAt (t p : List Char) (s : Nat) : Prop :=
  s + p.length ≤ t.length ∧ (t.drop s).take p.length = p

/-! Specification-side definitions: node strings, word suffixes, and the
intended values of the failure and output tables, all phrased over the
plain trie built by `build_trie` (before the printable wiring). -/

/-- Walk the trie from node `v` along the characters of `s`. -/
def wordNodeFrom (trie : List (List (Char × Nat))) : Nat → List Char → Option Nat
  | v, [] => some v
  | v, c :: s =>
    match lookupA (trie.getD v []) c with
    | some w => wordNodeFrom trie w s
    | none => none

/-- The node reached from the root by `s`, when `s` is a trie word. -/
def wordNode (trie : List (List (Char × Nat))) (s : List Char) : Option Nat :=
  wordNodeFrom trie 0 s

/-- `s` labels a root path of the trie. -/
def isWord (trie : List (List (Char × Nat))) (s : List Char) : Bool :=
  (wordNode trie s).isSome

/-- The longest suffix of `s` that is a trie word (always defined: the
empty suffix reaches the root). -/
def maxWordSuffix (trie : List (List (Char × Nat))) : List Char → List Char
  | [] => []
  | c :: rest => if isWord trie (c :: rest) then c :: rest else maxWordSuffix trie rest

/-- The label of the (unique) edge into `v` inside one row. -/
def findParentIn (v : Nat) : List (Char × Nat) → Option Char
  | [] => none
  | (c, w) :: rest => if w = v then some c else findParentIn v rest

/-- Scan the rows for the edge into `v`; `u` is the id of the first row. -/
def parentEdgeAux (v : Nat) : List (List (Char × Nat)) → Nat → Option (Nat × Char)
  | [], _ => none
  | row :: rest, u =>
    match findParentIn v row with
    | some c => some (u, c)
    | none => parentEdgeAux v rest (u + 1)

/-- The parent and edge label of node `v` (none for the root). -/
def parentEdge (trie : List (List (Char × Nat))) (v : Nat) : Option (Nat × Char) :=
  parentEdgeAux v trie 0

/-- The root path label of `v`, by walking parent edges (with fuel; in a
well-formed trie every parent id is smaller than its child id, so fuel `v`
suffices). -/
def nodeStrF (trie : List (List (Char × Nat))) : Nat → Nat → List Char
  | 0, _ => []
  | fuel + 1, v =>
    if v = 0 then []
    else
      match parentEdge trie v with
      | none => []
      | some (u, c) => nodeStrF trie fuel u ++ [c]

/-- The root path label of node `v`. -/
def nodeStr (trie : List (List (Char × Nat))) (v : Nat) : List Char :=
  nodeStrF trie v v

/-- Trie depth of node `v`. -/
def depth (trie : List (List (Char × Nat))) (v : Nat) : Nat :=
  (nodeStr trie v).length

/-- The intended failure target of `v`: the node of the longest proper
suffix of `v`'s label that is a trie word. -/
def failNodeSpec (trie : List (List (Char × Nat))) (v : Nat) : Nat :=
  (wordNode trie (maxWordSuffix trie (nodeStr trie v).tail)).getD 0

/-- The intended final output list of `v` (fuel version): its own direct
output followed by the final output of its failure target, except that
nodes of depth below two inherit nothing — exactly what the source's BFS
produces, since the seeding loop never chains outputs into depth-1 nodes. -/
def finalOutF (trie : List (List (Char × Nat))) (out : List (List Nat)) :
    Nat → Nat → List Nat
  | 0, v => out.getD v []
  | fuel + 1, v =>
    if 2 ≤ depth trie v then
      out.getD v [] ++ finalOutF trie out fuel (failNodeSpec trie v)
    else out.getD v []

/-- The intended final output list of node `v`. -/
def finalOut (trie : List (List (Char × Nat))) (out : List (List Nat)) (v : Nat) : List Nat :=
  finalOutF trie out (depth trie v) v

/-- The text position at which a reported match ends. -/
def endOff (ac : AC) (m : Int × Nat) : Int :=
  m.1 + ((ac.patterns.getD m.2 []).length : Int) - 1

/-! A checked variant of `search` that returns `none` wherever the Python
code would raise (an out-of-range list index) or fail to terminate (a
failure walk that exits neither at the root nor at a matching child within
the given fuel).  Searching a well-built automaton never returns `none`. -/

/-- Checked failure walk: every `self.trie[fail_state]` / `self.fail` index
is bounds-checked, and running out of fuel before the loop condition turns
false yields `none`. -/
def walkFailE (trie : List (List (Char × Nat))) (fail : List Nat) :
    Nat → Nat → Char → Option Nat
  | 0, s, c => if s = 0 ∨ (lookupA (trie.getD s []) c).isSome then some s else none
  | fuel + 1, s, c =>
    if s = 0 then some s
    else
      match trie.get? s with
      | none => none
      | some row =>
        if (lookupA row c).isSome then some s
        else
          match fail.get? s with
          | none => none
          | some s' => walkFailE trie fail fuel s' c

/-- Checked emission: every `self.patterns[pattern_index]` is bounds-checked. -/
def emitListE (patterns : List (List Char)) (pos : Nat) : List Nat → Option (List (Int × Nat))
  | [] => some []
  | k :: rest =>
    match patterns.get? k with
    | none => none
    | some p =>
      match emitListE patterns pos rest with
      | none => none
      | some ms => some (((pos : Int) - (p.length : Int) + 1, k) :: ms)

/-- Checked text loop of `search`. -/
def searchGoE (ac : AC) : Nat → Nat → List Char → Option (List (Int × Nat))
  | _, _, [] => some []
  | node, pos, c :: rest =>
    match walkFailE ac.trie ac.fail ac.trie.length node c with
    | none => none
    | some stop =>
      match ac.trie.get? stop with
      | none => none
      | some row =>
        let node' := (lookupA row c).getD 0
        match ac.output.get? node' with
        | none => none
        | some outs =>
          match emitListE ac.patterns pos outs with
          | none => none
          | some ems =>
            match searchGoE ac node' (pos + 1) rest with
            | none => none
            | some ms => some (ems ++ ms)

/-- Checked `search`. -/
def searchE (ac : AC) (text : List Char) : Option (List (Int × Nat)) :=
  searchGoE ac 0 0 text

/-- Well-formedness of the construction tables, maintained by every pattern
insertion: table lengths agree, edges go from smaller to larger ids and stay
in range, rows have no duplicate keys, every node has at most one incoming
edge and is reachable from the root, and (before `build_fail_links` runs)
all failure entries are 0. -/
structure TrieWF (st : TrieSt) : Prop where
  hfail_len : st.fail.length = st.trie.length
  hout_len : st.output.length = st.trie.length
  hpos : 0 < st.trie.length
  hfail0 : ∀ x ∈ st.fail, x = 0
  hedge : ∀ u : Nat, ∀ e ∈ st.trie.getD u [], u < e.2 ∧ e.2 < st.trie.length
  hkeys : ∀ u : Nat, ((st.trie.getD u []).map Prod.fst).Nodup
  huniq : ∀ u1 u2 : Nat, ∀ e1 e2 : Char × Nat, e1 ∈ st.trie.getD u1 [] →
    e2 ∈ st.trie.getD u2 [] → e1.2 = e2.2 → u1 = u2 ∧ e1.1 = e2.1
  hreach : ∀ v, v < st.trie.length → ∃ s, wordNode st.trie s = some v

/-- How one or more insertions extend the tables: old edges survive, edges
at old nodes are old edges or point to new nodes, new nodes only reach new
nodes, and outputs of old nodes are untouched while new nodes have none. -/
structure Ext (st st' : TrieSt) : Prop where
  hlen : st.trie.length ≤ st'.trie.length
  hold : ∀ u c w, lookupA (st.trie.getD u []) c = some w →
    lookupA (st'.trie.getD u []) c = some w
  hnew : ∀ u : Nat, ∀ e : Char × Nat, u < st.trie.length → e ∈ st'.trie.getD u [] →
    e ∈ st.trie.getD u [] ∨ st.trie.length ≤ e.2
  hfresh : ∀ u : Nat, st.trie.length ≤ u → ∀ e ∈ st'.trie.getD u [], st.trie.length ≤ e.2
  hout_old : ∀ v, v < st.trie.length → st'.output.getD v [] = st.output.getD v []
  hout_new : ∀ v, st.trie.length ≤ v → st'.output.getD v [] = []

/-- The state change of the `if character not in self.trie[node]` branch of
`build_trie`: allocate one fresh node reached from `node` by `c` (named so
the insertion proofs can speak about it; `insertChars` performs exactly this
update before recursing). -/
def allocNode (st : TrieSt) (node : Nat) (c : Char) : TrieSt :=
  { trie := (st.trie.set node ((st.trie.getD node []) ++ [(c, st.trie.length)])) ++ [[]],
    fail := st.fail ++ [0],
    output := st.output ++ [[]] }

/-- The trie table after the printable wiring of `build_fail_links`
(the root row extended, every other row untouched). -/
def wiredTrie (st : TrieSt) : List (List (Char × Nat)) :=
  st.trie.set 0 (wireRoot (st.trie.getD 0 []))

/-- After inserting the patterns of `done`, the output list of every node is
exactly the set of indices of `done`-patterns equal to that node's label. -/
def OutInv (st : TrieSt) (done : List (List Char)) : Prop :=
  ∀ v s, wordNode st.trie s = some v →
    ∀ k, k ∈ st.output.getD v [] ↔ done.get? k = some s

/-- Every already-inserted pattern labels a trie path. -/
def WordsInv (st : TrieSt) (done : List (List Char)) : Prop :=
  ∀ k p, done.get? k = some p → (wordNode st.trie p).isSome

/-! ## Generic helpers -/

theorem getD_get? {α : Type} (l : List α) (n : Nat) (d : α) :
    l.getD n d = (l.get? n).getD d := rfl

theorem getD_set_self {α : Type} (l : List α) (n : Nat) (a d : α) (h : n < l.length) :
    (l.set n a).getD n d = a := by
  rw [getD_get?, List.get?_set_eq_of_lt a h]; rfl

theorem getD_set_ne {α : Type} (l : List α) (m n : Nat) (a d : α) (h : m ≠ n) :
    (l.set m a).getD n d = l.getD n d := by
  rw [getD_get?, List.get?_set_ne a l h, getD_get?]

theorem getD_append_left {α : Type} (l l2 : List α) (n : Nat) (d : α) (h : n < l.length) :
    (l ++ l2).getD n d = l.getD n d := by
  rw [getD_get?, List.get?_append h, getD_get?]

theorem getD_append_self {α : Type} (l : List α) (a d : α) :
    (l ++ [a]).getD l.length d = a := by
  rw [getD_get?, List.get?_concat_length]; rfl

theorem getD_append_self' {α : Type} (l : List α) (a d : α) (i : Nat) (h : i = l.length) :
    (l ++ [a]).getD i d = a := by
  subst h
  exact getD_append_self l a d

theorem getD_of_len_le {α : Type} (l : List α) (n : Nat) (d : α) (h : l.length ≤ n) :
    l.getD n d = d := by
  rw [getD_get?, List.get?_eq_none.mpr h]; rfl

theorem lookupA_mem {l : List (Char × Nat)} {c : Char} {v : Nat}
    (h : lookupA l c = some v) : (c, v) ∈ l := by
  induction l with
  | nil => simp [lookupA] at h
  | cons p rest ih =>
    obtain ⟨k, w⟩ := p
    by_cases hk : k = c
    · subst hk
      simp [lookupA] at h
      simp [h]
    · simp [lookupA, hk] at h
      exact List.mem_cons_of_mem _ (ih h)

theorem lookupA_isSome_of_mem {l : List (Char × Nat)} {c : Char} {v : Nat}
    (h : (c, v) ∈ l) : (lookupA l c).isSome := by
  induction l with
  | nil => simp at h
  | cons p rest ih =>
    obtain ⟨k, w⟩ := p
    by_cases hk : k = c
    · simp [lookupA, hk]
    · rcases List.mem_cons.mp h with h1 | h2
      · cases h1; simp at hk
      · simpa [lookupA, hk] using ih h2

theorem lookupA_append_some {l l2 : List (Char × Nat)} {c : Char} {v : Nat}
    (h : lookupA l c = some v) : lookupA (l ++ l2) c = some v := by
  induction l with
  | nil => simp [lookupA] at h
  | cons p rest ih =>
    obtain ⟨k, w⟩ := p
    by_cases hk : k = c <;> simp [lookupA, hk] at h ⊢ <;> simp_all

theorem lookupA_append_none {l l2 : List (Char × Nat)} {c : Char}
    (h : lookupA l c = none) : lookupA (l ++ l2) c = lookupA l2 c := by
  induction l with
  | nil => rfl
  | cons p rest ih =>
    obtain ⟨k, w⟩ := p
    by_cases hk : k = c <;> simp [lookupA, hk] at h ⊢ <;> simp_all

theorem lookupA_none_of_not_key {l : List (Char × Nat)} {c : Char}
    (h : ∀ e ∈ l, e.1 ≠ c) : lookupA l c = none := by
  induction l with
  | nil => rfl
  | cons p rest ih =>
    obtain ⟨k, w⟩ := p
    have hk : k ≠ c := h (k, w) (List.mem_cons_self _ _)
    simp [lookupA, hk]
    exact ih fun e he => h e (List.mem_cons_of_mem _ he)

theorem lookupA_some_of_append {l l2 : List (Char × Nat)} {c : Char}
    (h : (lookupA l c).isSome) : (lookupA (l ++ l2) c).isSome := by
  rcases hs : lookupA l c with _ | v
  · simp [hs] at h
  · simp [lookupA_append_some hs]

/-! ## The printable wiring of the root row -/

theorem wireFold_mem {L : List Char} {row : List (Char × Nat)} {e : Char × Nat}
    (h : e ∈ L.foldl (fun r c => if (lookupA r c).isSome then r else r ++ [(c, 0)]) row) :
    e ∈ row ∨ (e.2 = 0 ∧ e.1 ∈ L ∧ lookupA row e.1 = none) := by
  induction L generalizing row with
  | nil => exact Or.inl h
  | cons a L ih =>
    have h' := @ih (if (lookupA row a).isSome then row else row ++ [(a, 0)])
        (by simpa [List.foldl_cons] using h)
    rcases h' with h1 | ⟨h0, hL, hn⟩
    · by_cases hs : (lookupA row a).isSome
      · rw [if_pos hs] at h1
        exact Or.inl h1
      · rw [if_neg hs] at h1
        rcases List.mem_append.mp h1 with h2 | h2
        · exact Or.inl h2
        · rcases List.mem_singleton.mp h2 with rfl
          exact Or.inr ⟨rfl, List.mem_cons_self _ _, by simpa using hs⟩
    · by_cases hs : (lookupA row a).isSome
      · rw [if_pos hs] at hn
        exact Or.inr ⟨h0, List.mem_cons_of_mem _ hL, hn⟩
      · rw [if_neg hs] at hn
        rcases hr : lookupA row e.1 with _ | v
        · exact Or.inr ⟨h0, List.mem_cons_of_mem _ hL, rfl⟩
        · rw [lookupA_append_some hr] at hn; cases hn

theorem wireFold_mono {L : List Char} {row : List (Char × Nat)} {e : Char × Nat}
    (h : e ∈ row) :
    e ∈ L.foldl (fun r c => if (lookupA r c).isSome then r else r ++ [(c, 0)]) row := by
  induction L generalizing row with
  | nil => exact h
  | cons a L ih =>
    simp only [List.foldl_cons]
    by_cases hs : (lookupA row a).isSome
    · simpa [hs] using ih h
    · exact ih (by simp [hs, List.mem_append, h])

theorem wireFold_wired {L : List Char} {row : List (Char × Nat)} {c : Char}
    (hc : c ∈ L) (hn : lookupA row c = none) :
    (c, 0) ∈ L.foldl (fun r c => if (lookupA r c).isSome then r else r ++ [(c, 0)]) row := by
  induction L generalizing row with
  | nil => simp at hc
  | cons a L ih =>
    simp only [List.foldl_cons]
    by_cases hac : a = c
    · subst hac
      simp only [hn, Option.isSome_none, Bool.false_eq_true, if_false]
      exact wireFold_mono (by simp)
    · rcases List.mem_cons.mp hc with h1 | h2
      · exact absurd h1.symm hac
      · by_cases hs : (lookupA row a).isSome
        · rw [if_pos hs]
          exact ih h2 hn
        · rw [if_neg hs]
          exact ih h2 (by rw [lookupA_append_none hn]; simp [lookupA, hac])

theorem wireRoot_mem {row : List (Char × Nat)} {e : Char × Nat} (h : e ∈ wireRoot row) :
    e ∈ row ∨ (e.2 = 0 ∧ e.1 ∈ printable ∧ lookupA row e.1 = none) :=
  wireFold_mem h

theorem wireRoot_value {row : List (Char × Nat)} {e : Char × Nat} (h : e ∈ wireRoot row) :
    e ∈ row ∨ e.2 = 0 := by
  rcases wireRoot_mem h with h1 | h2
  · exact Or.inl h1
  · exact Or.inr h2.1

/-! ## Structure of the search loop -/

theorem walkFail_zero (trie : List (List (Char × Nat))) (fail : List Nat)
    (fuel : Nat) (c : Char) : walkFail trie fail fuel 0 c = 0 := by
  cases fuel <;> simp [walkFail]

theorem walkFail_succ (trie : List (List (Char × Nat))) (fail : List Nat)
    (f s : Nat) (c : Char) :
    walkFail trie fail (f + 1) s c =
      if s ≠ 0 ∧ lookupA (trie.getD s []) c = none then
        walkFail trie fail f (fail.getD s 0) c
      else s := rfl

theorem finalOutF_succ (T : List (List (Char × Nat))) (out : List (List Nat))
    (f v : Nat) :
    finalOutF T out (f + 1) v =
      if 2 ≤ depth T v then out.getD v [] ++ finalOutF T out f (failNodeSpec T v)
      else out.getD v [] := rfl

theorem stateGo_append (ac : AC) (node : Nat) (u v : List Char) :
    stateGo ac node (u ++ v) = stateGo ac (stateGo ac node u) v := by
  induction u generalizing node with
  | nil => rfl
  | cons c rest ih => simp [stateGo, ih]

theorem mem_searchGo {ac : AC} {node pos : Nat} {t : List Char} {m : Int × Nat} :
    m ∈ searchGo ac node pos t ↔
      ∃ i, i < t.length ∧ m ∈ emitAt ac (stateGo ac node (t.take (i + 1))) (pos + i) := by
  induction t generalizing node pos with
  | nil => simp [searchGo]
  | cons c rest ih =>
    simp only [searchGo, List.mem_append, ih]
    constructor
    · rintro (h | ⟨i, hi, hm⟩)
      · exact ⟨0, by simp, by simpa [stateGo] using h⟩
      · refine ⟨i + 1, by simpa using Nat.succ_lt_succ hi, ?_⟩
        have : pos + (i + 1) = pos + 1 + i := by omega
        simpa [stateGo, List.take_succ_cons, this] using hm
    · rintro ⟨i, hi, hm⟩
      cases i with
      | zero => exact Or.inl (by simpa [stateGo] using hm)
      | succ j =>
        refine Or.inr ⟨j, by simp only [List.length_cons] at hi; omega, ?_⟩
        have : pos + (j + 1) = pos + 1 + j := by omega
        simpa [stateGo, List.take_succ_cons, this] using hm

theorem mem_emitAt {ac : AC} {v pos : Nat} {m : Int × Nat} :
    m ∈ emitAt ac v pos ↔
      ∃ k ∈ ac.output.getD v [],
        m = ((pos : Int) - ((ac.patterns.getD k []).length : Int) + 1, k) := by
  simp only [emitAt, List.mem_map]
  constructor
  · rintro ⟨k, hk, rfl⟩; exact ⟨k, hk, rfl⟩
  · rintro ⟨k, hk, rfl⟩; exact ⟨k, hk, rfl⟩

theorem endOff_emitAt {ac : AC} {v pos : Nat} {m : Int × Nat} (h : m ∈ emitAt ac v pos) :
    endOff ac m = (pos : Int) := by
  rcases mem_emitAt.mp h with ⟨k, _, rfl⟩
  dsimp only [endOff]
  omega

theorem endOff_searchGo_ge {ac : AC} {node pos : Nat} {t : List Char} {m : Int × Nat}
    (h : m ∈ searchGo ac node pos t) : (pos : Int) ≤ endOff ac m := by
  rcases mem_searchGo.mp h with ⟨i, _, hm⟩
  rw [endOff_emitAt hm]
  exact_mod_cast Nat.le_add_right pos i

theorem pairwise_of_mem_pairs {α : Type} {r : α → α → Prop} {l : List α}
    (h : ∀ a ∈ l, ∀ b ∈ l, r a b) : l.Pairwise r := by
  induction l with
  | nil => exact List.Pairwise.nil
  | cons x xs ih =>
    refine List.Pairwise.cons (fun b hb => h x (by simp) b (by simp [hb])) (ih ?_)
    exact fun a ha b hb => h a (by simp [ha]) b (by simp [hb])

theorem searchGo_endOff_pairwise (ac : AC) (node pos : Nat) (t : List Char) :
    (searchGo ac node pos t).Pairwise (fun a b => endOff ac a ≤ endOff ac b) := by
  induction t generalizing node pos with
  | nil => simp [searchGo]
  | cons c rest ih =>
    rw [searchGo, List.pairwise_append]
    refine ⟨pairwise_of_mem_pairs ?_, ih _ _, ?_⟩
    · intro a ha b hb
      rw [endOff_emitAt ha, endOff_emitAt hb]
    · intro a ha b hb
      rw [endOff_emitAt ha]
      calc (pos : Int) ≤ ((pos + 1 : Nat) : Int) := by exact_mod_cast Nat.le_succ pos
        _ ≤ endOff ac b := endOff_searchGo_ge hb

/-! ## Words of the trie -/

theorem get?_eq_some_getD {α : Type} {l : List α} {u : Nat} (d : α) (h : u < l.length) :
    l.get? u = some (l.getD u d) := by
  rcases hg : l.get? u with _ | a
  · rw [List.get?_eq_none] at hg; omega
  · rw [getD_get?, hg]
    rfl

theorem mem_getD_lt {l : List (List (Char × Nat))} {u : Nat} {e : Char × Nat}
    (h : e ∈ l.getD u []) : u < l.length := by
  by_contra hc
  rw [getD_of_len_le _ _ _ (by omega)] at h
  cases h

theorem wordNodeFrom_append (T : List (List (Char × Nat))) (v : Nat) (s1 s2 : List Char) :
    wordNodeFrom T v (s1 ++ s2) = (wordNodeFrom T v s1).bind (fun u => wordNodeFrom T u s2) := by
  induction s1 generalizing v with
  | nil => rfl
  | cons c s1 ih =>
    simp only [List.cons_append, wordNodeFrom]
    rcases lookupA (T.getD v []) c with _ | w
    · rfl
    · exact ih w

theorem wordNodeFrom_single (T : List (List (Char × Nat))) (v : Nat) (c : Char) :
    wordNodeFrom T v [c] = lookupA (T.getD v []) c := by
  rw [wordNodeFrom]
  rcases lookupA (T.getD v []) c with _ | w <;> rfl

theorem wordNode_snoc {T : List (List (Char × Nat))} {s : List Char} {c : Char} {w : Nat} :
    wordNode T (s ++ [c]) = some w ↔
      ∃ u, wordNode T s = some u ∧ lookupA (T.getD u []) c = some w := by
  unfold wordNode
  rw [wordNodeFrom_append, Option.bind_eq_some]
  constructor
  · rintro ⟨u, hu, h⟩
    exact ⟨u, hu, by rwa [wordNodeFrom_single] at h⟩
  · rintro ⟨u, hu, h⟩
    exact ⟨u, hu, by rwa [wordNodeFrom_single]⟩

theorem word_nil_of_zero {st : TrieSt} (wf : TrieWF st) {s : List Char}
    (h : wordNode st.trie s = some 0) : s = [] := by
  rcases List.eq_nil_or_concat s with rfl | ⟨a, c, rfl⟩
  · rfl
  · rw [List.concat_eq_append] at h
    obtain ⟨u, _, he⟩ := wordNode_snoc.mp h
    have := (wf.hedge u _ (lookupA_mem he)).1
    omega

theorem word_lt {st : TrieSt} (wf : TrieWF st) {s : List Char} {v : Nat}
    (h : wordNode st.trie s = some v) : v < st.trie.length := by
  rcases List.eq_nil_or_concat s with rfl | ⟨a, c, rfl⟩
  · cases h
    exact wf.hpos
  · rw [List.concat_eq_append] at h
    obtain ⟨u, _, he⟩ := wordNode_snoc.mp h
    exact (wf.hedge u _ (lookupA_mem he)).2

theorem word_len_le {st : TrieSt} (wf : TrieWF st) {s : List Char} {v : Nat}
    (h : wordNode st.trie s = some v) : s.length ≤ v := by
  induction s using List.reverseRecOn generalizing v with
  | nil => simp
  | append_singleton a c ih =>
    obtain ⟨u, hu, he⟩ := wordNode_snoc.mp h
    have h1 := (wf.hedge u _ (lookupA_mem he)).1
    have h2 := ih hu
    simp only [List.length_append, List.length_singleton]
    omega

theorem word_inj {st : TrieSt} (wf : TrieWF st) :
    ∀ v : Nat, ∀ s s' : List Char,
      wordNode st.trie s = some v → wordNode st.trie s' = some v → s = s' := by
  intro v
  induction v using Nat.strong_induction_on with
  | _ v ih =>
    intro s s' hs hs'
    rcases List.eq_nil_or_concat s with rfl | ⟨a, c, rfl⟩
    · cases hs
      exact (word_nil_of_zero wf hs').symm
    · rw [List.concat_eq_append] at hs
      obtain ⟨u, hu, he⟩ := wordNode_snoc.mp hs
      have hlt := (wf.hedge u _ (lookupA_mem he)).1
      rcases List.eq_nil_or_concat s' with rfl | ⟨a', c', rfl⟩
      · cases hs'
        omega
      · rw [List.concat_eq_append] at hs'
        obtain ⟨u', hu', he'⟩ := wordNode_snoc.mp hs'
        obtain ⟨hequ, heqc⟩ :=
          wf.huniq u u' (c, v) (c', v) (lookupA_mem he) (lookupA_mem he') rfl
        subst hequ
        rcases heqc with rfl
        rw [List.concat_eq_append, List.concat_eq_append, ih u hlt a a' hu hu']

/-! ## Parent edges and node labels -/

theorem findParentIn_mem {v : Nat} {row : List (Char × Nat)} {c : Char}
    (h : findParentIn v row = some c) : (c, v) ∈ row := by
  induction row with
  | nil => cases h
  | cons e rest ih =>
    obtain ⟨k, w⟩ := e
    by_cases hw : w = v
    · subst hw
      simp only [findParentIn, if_pos rfl] at h
      cases h
      exact List.mem_cons_self _ _
    · rw [findParentIn, if_neg hw] at h
      exact List.mem_cons_of_mem _ (ih h)

theorem findParentIn_isSome {v : Nat} {row : List (Char × Nat)} {c : Char}
    (h : (c, v) ∈ row) : (findParentIn v row).isSome := by
  induction row with
  | nil => cases h
  | cons e rest ih =>
    obtain ⟨k, w⟩ := e
    by_cases hw : w = v
    · subst hw
      simp [findParentIn]
    · rcases List.mem_cons.mp h with h1 | h2
      · cases h1
        simp at hw
      · rw [findParentIn, if_neg hw]
        exact ih h2

theorem parentEdgeAux_sound {v : Nat} :
    ∀ (rows : List (List (Char × Nat))) (u0 u : Nat) (c : Char),
      parentEdgeAux v rows u0 = some (u, c) →
      u0 ≤ u ∧ ∃ row, rows.get? (u - u0) = some row ∧ (c, v) ∈ row := by
  intro rows
  induction rows with
  | nil => intro u0 u c h; cases h
  | cons row rest ih =>
    intro u0 u c h
    rw [parentEdgeAux] at h
    rcases hf : findParentIn v row with _ | c0
    · rw [hf] at h
      obtain ⟨h1, row', h2, h3⟩ := ih (u0 + 1) u c h
      refine ⟨by omega, row', ?_, h3⟩
      have : u - u0 = (u - (u0 + 1)) + 1 := by omega
      rw [this, List.get?_cons_succ]
      exact h2
    · rw [hf] at h
      cases h
      exact ⟨Nat.le_refl _, row, by simp, findParentIn_mem hf⟩

theorem parentEdgeAux_isSome {v : Nat} :
    ∀ (rows : List (List (Char × Nat))) (u0 i : Nat) (row : List (Char × Nat)) (c : Char),
      rows.get? i = some row → (c, v) ∈ row → (parentEdgeAux v rows u0).isSome := by
  intro rows
  induction rows with
  | nil => intro u0 i row c h _; cases h
  | cons row0 rest ih =>
    intro u0 i row c h hm
    rw [parentEdgeAux]
    rcases hf : findParentIn v row0 with _ | c0
    · cases i with
      | zero =>
        cases h
        have := findParentIn_isSome hm
        rw [hf] at this
        cases this
      | succ j => exact ih (u0 + 1) j row c (by simpa using h) hm
    · simp

theorem parentEdge_spec {st : TrieSt} (wf : TrieWF st) {u : Nat} {c : Char} {v : Nat}
    (h : (c, v) ∈ st.trie.getD u []) : parentEdge st.trie v = some (u, c) := by
  have hu : u < st.trie.length := mem_getD_lt h
  have hsome : (parentEdgeAux v st.trie 0).isSome :=
    parentEdgeAux_isSome st.trie 0 u _ c (get?_eq_some_getD [] hu) h
  rcases hpe : parentEdgeAux v st.trie 0 with _ | p
  · rw [hpe] at hsome; cases hsome
  · obtain ⟨u', c'⟩ := p
    obtain ⟨-, row', hrow, hmem⟩ := parentEdgeAux_sound st.trie 0 u' c' hpe
    have hrow2 : row' = st.trie.getD u' [] := by
      rw [Nat.sub_zero] at hrow
      rw [getD_get?, hrow]
      rfl
    subst hrow2
    obtain ⟨h1, h2⟩ := wf.huniq u' u (c', v) (c, v) hmem h rfl
    subst h1
    rcases h2 with rfl
    exact hpe

theorem nodeStrF_spec {st : TrieSt} (wf : TrieWF st) :
    ∀ fuel v s, v ≤ fuel → wordNode st.trie s = some v → nodeStrF st.trie fuel v = s := by
  intro fuel
  induction fuel with
  | zero =>
    intro v s hv h
    have : v = 0 := by omega
    subst this
    exact (word_nil_of_zero wf h).symm
  | succ f ih =>
    intro v s hv h
    by_cases h0 : v = 0
    · subst h0
      rw [word_nil_of_zero wf h]
      rw [nodeStrF, if_pos rfl]
    · rcases List.eq_nil_or_concat s with rfl | ⟨a, c, rfl⟩
      · cases h; omega
      · rw [List.concat_eq_append] at h ⊢
        obtain ⟨u, hu, he⟩ := wordNode_snoc.mp h
        have hlt := (wf.hedge u _ (lookupA_mem he)).1
        have hpe : parentEdge st.trie v = some (u, c) := parentEdge_spec wf (lookupA_mem he)
        rw [nodeStrF, if_neg h0, hpe]
        show nodeStrF st.trie f u ++ [c] = a ++ [c]
        rw [ih u a (by omega) hu]

theorem nodeStr_of_word {st : TrieSt} (wf : TrieWF st) {s : List Char} {v : Nat}
    (h : wordNode st.trie s = some v) : nodeStr st.trie v = s :=
  nodeStrF_spec wf v v s (Nat.le_refl v) h

theorem nodeStr_word {st : TrieSt} (wf : TrieWF st) {v : Nat} (hv : v < st.trie.length) :
    wordNode st.trie (nodeStr st.trie v) = some v := by
  obtain ⟨s, hs⟩ := wf.hreach v hv
  rw [nodeStr_of_word wf hs]
  exact hs

theorem depth_of_word {st : TrieSt} (wf : TrieWF st) {s : List Char} {v : Nat}
    (h : wordNode st.trie s = some v) : depth st.trie v = s.length := by
  rw [depth, nodeStr_of_word wf h]

/-! ## Extension lemmas -/

theorem lookupA_of_mem_nodup {row : List (Char × Nat)} {c : Char} {v : Nat}
    (hn : (row.map Prod.fst).Nodup) (h : (c, v) ∈ row) : lookupA row c = some v := by
  induction row with
  | nil => cases h
  | cons e rest ih =>
    obtain ⟨k, w⟩ := e
    have hn2 : (k :: rest.map Prod.fst).Nodup := by simpa only [List.map_cons] using hn
    have hn' := List.nodup_cons.mp hn2
    rcases List.mem_cons.mp h with h1 | h2
    · cases h1
      simp [lookupA]
    · have hk : k ≠ c := by
        intro hkc
        subst hkc
        exact hn'.1 (List.mem_map_of_mem Prod.fst h2)
      rw [lookupA, if_neg hk]
      exact ih hn'.2 h2

theorem Ext.same (st : TrieSt) (h : st.output.length ≤ st.trie.length) : Ext st st where
  hlen := Nat.le_refl _
  hold := fun _ _ _ h => h
  hnew := fun _ _ _ h => Or.inl h
  hfresh := fun u hu e he => by
    rw [getD_of_len_le _ _ _ hu] at he
    cases he
  hout_old := fun _ _ => rfl
  hout_new := fun v hv => getD_of_len_le _ _ _ (by omega)

theorem Ext.trans {st1 st2 st3 : TrieSt} (e1 : Ext st1 st2) (e2 : Ext st2 st3) :
    Ext st1 st3 where
  hlen := Nat.le_trans e1.hlen e2.hlen
  hold := fun u c w h => e2.hold u c w (e1.hold u c w h)
  hnew := fun u e hu hm => by
    rcases e2.hnew u e (Nat.lt_of_lt_of_le hu e1.hlen) hm with h | h
    · exact e1.hnew u e hu h
    · exact Or.inr (Nat.le_trans e1.hlen h)
  hfresh := fun u hu e hm => by
    by_cases h2 : st2.trie.length ≤ u
    · exact Nat.le_trans e1.hlen (e2.hfresh u h2 e hm)
    · rcases e2.hnew u e (by omega) hm with h | h
      · exact e1.hfresh u hu e h
      · exact Nat.le_trans e1.hlen h
  hout_old := fun v hv => by
    rw [e2.hout_old v (Nat.lt_of_lt_of_le hv e1.hlen), e1.hout_old v hv]
  hout_new := fun v hv => by
    by_cases h2 : v < st2.trie.length
    · rw [e2.hout_old v h2, e1.hout_new v hv]
    · exact e2.hout_new v (by omega)

theorem Ext.word_some {st st' : TrieSt} (ext : Ext st st') :
    ∀ {s : List Char} {v w : Nat}, wordNodeFrom st.trie v s = some w →
      wordNodeFrom st'.trie v s = some w := by
  intro s
  induction s with
  | nil => intro v w h; exact h
  | cons c rest ih =>
    intro v w h
    rw [wordNodeFrom] at h ⊢
    rcases hx : lookupA (st.trie.getD v []) c with _ | x
    · rw [hx] at h; cases h
    · rw [hx] at h
      rw [ext.hold v c x hx]
      exact ih h

theorem Ext.word_fresh {st st' : TrieSt} (ext : Ext st st') :
    ∀ {s : List Char} {v w : Nat}, st.trie.length ≤ v →
      wordNodeFrom st'.trie v s = some w → st.trie.length ≤ w := by
  intro s
  induction s with
  | nil => intro v w hv h; cases h; exact hv
  | cons c rest ih =>
    intro v w hv h
    rw [wordNodeFrom] at h
    rcases hx : lookupA (st'.trie.getD v []) c with _ | x
    · rw [hx] at h; cases h
    · rw [hx] at h
      exact ih (ext.hfresh v hv _ (lookupA_mem hx)) h

theorem Ext.word_old {st st' : TrieSt} (wf : TrieWF st) (ext : Ext st st') :
    ∀ {s : List Char} {v w : Nat}, v < st.trie.length → w < st.trie.length →
      wordNodeFrom st'.trie v s = some w → wordNodeFrom st.trie v s = some w := by
  intro s
  induction s with
  | nil => intro v w _ _ h; exact h
  | cons c rest ih =>
    intro v w hv hw h
    rw [wordNodeFrom] at h
    rcases hx : lookupA (st'.trie.getD v []) c with _ | x
    · rw [hx] at h; cases h
    · rw [hx] at h
      rcases ext.hnew v (c, x) hv (lookupA_mem hx) with hm | hfr
    -- either the edge already existed, or it leads to a fresh node
      · have hlk : lookupA (st.trie.getD v []) c = some x :=
          lookupA_of_mem_nodup (wf.hkeys v) hm
        have hxn : x < st.trie.length := (wf.hedge v _ hm).2
        rw [wordNodeFrom, hlk]
        exact ih hxn hw h
      · exact absurd (ext.word_fresh hfr h) (by omega)

/-! ## The allocation step of the trie builder -/

theorem allocNode_trie_len (st : TrieSt) (node : Nat) (c : Char) :
    (allocNode st node c).trie.length = st.trie.length + 1 := by
  simp [allocNode]

theorem allocNode_row (st : TrieSt) (node : Nat) (c : Char)
    (hnode : node < st.trie.length) (u : Nat) :
    (allocNode st node c).trie.getD u [] =
      if u = node then (st.trie.getD node []) ++ [(c, st.trie.length)]
      else st.trie.getD u [] := by
  have hsl : (st.trie.set node ((st.trie.getD node []) ++ [(c, st.trie.length)])).length
      = st.trie.length := List.length_set _ _ _
  simp only [allocNode]
  by_cases h : u = node
  · subst h
    rw [if_pos rfl, getD_append_left _ _ _ _ (by rw [hsl]; exact hnode),
      getD_set_self _ _ _ _ hnode]
  · rw [if_neg h]
    by_cases hu : u < st.trie.length
    · rw [getD_append_left _ _ _ _ (by rw [hsl]; exact hu),
        getD_set_ne _ _ _ _ _ (fun hh => h hh.symm)]
    · by_cases he : u = st.trie.length
      · subst he
        rw [getD_of_len_le st.trie _ _ (Nat.le_refl _),
          getD_append_self' _ _ _ _ hsl.symm]
      · rw [getD_of_len_le _ _ _ (show st.trie.length ≤ u by omega),
          getD_of_len_le _ _ _ (by rw [List.length_append, hsl]; simp; omega)]

theorem allocNode_mem_iff (st : TrieSt) (node : Nat) (c : Char)
    (hnode : node < st.trie.length) (u : Nat) (e : Char × Nat) :
    e ∈ (allocNode st node c).trie.getD u [] ↔
      e ∈ st.trie.getD u [] ∨ (u = node ∧ e = (c, st.trie.length)) := by
  rw [allocNode_row st node c hnode u]
  by_cases h : u = node
  · subst h
    rw [if_pos rfl, List.mem_append, List.mem_singleton]
    tauto
  · rw [if_neg h]
    tauto

theorem allocNode_lookup (st : TrieSt) (node : Nat) (c : Char)
    (hnode : node < st.trie.length)
    (hlk : lookupA (st.trie.getD node []) c = none) :
    lookupA ((allocNode st node c).trie.getD node []) c = some st.trie.length := by
  rw [allocNode_row st node c hnode node, if_pos rfl, lookupA_append_none hlk]
  simp [lookupA]

theorem allocNode_ext {st : TrieSt} (wf : TrieWF st) {node : Nat} {c : Char}
    (hnode : node < st.trie.length) : Ext st (allocNode st node c) where
  hlen := by rw [allocNode_trie_len]; omega
  hold := fun u c' w h => by
    rw [allocNode_row st node c hnode u]
    by_cases hu : u = node
    · subst hu
      rw [if_pos rfl]
      exact lookupA_append_some h
    · rwa [if_neg hu]
  hnew := fun u e hu hm => by
    rcases (allocNode_mem_iff st node c hnode u e).mp hm with h | ⟨_, rfl⟩
    · exact Or.inl h
    · exact Or.inr (Nat.le_refl _)
  hfresh := fun u hu e hm => by
    rcases (allocNode_mem_iff st node c hnode u e).mp hm with h | ⟨rfl, rfl⟩
    · rw [getD_of_len_le _ _ _ hu] at h
      cases h
    · omega
  hout_old := fun v hv => by
    show (st.output ++ [[]]).getD v [] = _
    exact getD_append_left _ _ _ _ (by rw [wf.hout_len]; exact hv)
  hout_new := fun v hv => by
    show (st.output ++ [[]]).getD v [] = []
    by_cases he : v = st.output.length
    · subst he
      exact getD_append_self _ _ _
    · rw [wf.hout_len] at he
      exact getD_of_len_le _ _ _ (by rw [List.length_append, wf.hout_len]; simp; omega)

theorem allocNode_wf {st : TrieSt} (wf : TrieWF st) {node : Nat} {c : Char}
    (hnode : node < st.trie.length)
    (hlk : lookupA (st.trie.getD node []) c = none) :
    TrieWF (allocNode st node c) where
  hfail_len := by
    show (st.fail ++ [0]).length = _
    rw [allocNode_trie_len, List.length_append, wf.hfail_len]
    rfl
  hout_len := by
    show (st.output ++ [[]]).length = _
    rw [allocNode_trie_len, List.length_append, wf.hout_len]
    rfl
  hpos := by rw [allocNode_trie_len]; omega
  hfail0 := by
    intro x hx
    rcases List.mem_append.mp hx with h | h
    · exact wf.hfail0 x h
    · simpa using h
  hedge := by
    intro u e hm
    rw [allocNode_trie_len]
    rcases (allocNode_mem_iff st node c hnode u e).mp hm with h | ⟨hu, he⟩
    · have := wf.hedge u e h
      omega
    · rw [hu, he]
      exact ⟨hnode, Nat.lt_succ_self _⟩
  hkeys := by
    intro u
    rw [allocNode_row st node c hnode u]
    by_cases h : u = node
    · rw [if_pos h]
      rw [List.map_append, List.nodup_append]
      refine ⟨wf.hkeys node, by simp, ?_⟩
      intro a ha hb
      simp only [List.map_cons, List.map_nil, List.mem_singleton] at hb
      subst hb
      obtain ⟨e, he, hfst⟩ := List.mem_map.mp ha
      obtain ⟨k, w⟩ := e
      cases hfst
      have := lookupA_isSome_of_mem he
      rw [hlk] at this
      cases this
    · rw [if_neg h]
      exact wf.hkeys u
  huniq := by
    intro u1 u2 e1 e2 h1 h2 heq
    rcases (allocNode_mem_iff st node c hnode u1 e1).mp h1 with hm1 | ⟨hu1, he1⟩
    · rcases (allocNode_mem_iff st node c hnode u2 e2).mp h2 with hm2 | ⟨hu2, he2⟩
      · exact wf.huniq u1 u2 e1 e2 hm1 hm2 heq
      · have h3 := (wf.hedge u1 e1 hm1).2
        rw [he2] at heq
        have heq2 : e1.2 = st.trie.length := heq
        omega
    · rcases (allocNode_mem_iff st node c hnode u2 e2).mp h2 with hm2 | ⟨hu2, he2⟩
      · have h3 := (wf.hedge u2 e2 hm2).2
        rw [he1] at heq
        have heq2 : st.trie.length = e2.2 := heq.symm.symm
        omega
      · rw [hu1, hu2, he1, he2]
        exact ⟨rfl, rfl⟩
  hreach := by
    intro v hv
    rw [allocNode_trie_len] at hv
    by_cases hvn : v < st.trie.length
    · obtain ⟨s, hs⟩ := wf.hreach v hvn
      exact ⟨s, (allocNode_ext wf hnode).word_some hs⟩
    · have hveq : v = st.trie.length := by omega
      subst hveq
      obtain ⟨s, hs⟩ := wf.hreach node hnode
      refine ⟨s ++ [c], ?_⟩
      rw [wordNode_snoc]
      exact ⟨node, (allocNode_ext wf hnode).word_some hs,
        allocNode_lookup st node c hnode hlk⟩

/-! ## Correctness of the pattern insertion -/

theorem get?_some_lt {α : Type} {l : List α} {k : Nat} {a : α} (h : l.get? k = some a) :
    k < l.length := by
  by_contra hc
  rw [List.get?_eq_none.mpr (by omega)] at h
  cases h

theorem insertChars_spec :
    ∀ (p : List Char) (st : TrieSt) (node : Nat), TrieWF st → node < st.trie.length →
      TrieWF (insertChars st node p).1 ∧
      Ext st (insertChars st node p).1 ∧
      (insertChars st node p).2 < (insertChars st node p).1.trie.length ∧
      ∀ s0, wordNode st.trie s0 = some node →
        wordNode (insertChars st node p).1.trie (s0 ++ p) = some (insertChars st node p).2 := by
  intro p
  induction p with
  | nil =>
    intro st node wf hnode
    refine ⟨wf, Ext.same st (Nat.le_of_eq wf.hout_len), hnode, ?_⟩
    intro s0 h
    simpa using h
  | cons c rest ih =>
    intro st node wf hnode
    rcases hlk : lookupA (st.trie.getD node []) c with _ | child
    · have hwf1 := allocNode_wf wf hnode hlk
      have hext1 := @allocNode_ext st wf node c hnode
      have hfresh : st.trie.length < (allocNode st node c).trie.length := by
        rw [allocNode_trie_len]
        omega
      obtain ⟨hwf2, hext2, hlt2, hword2⟩ := ih (allocNode st node c) st.trie.length hwf1 hfresh
      have heq : insertChars st node (c :: rest) =
          insertChars (allocNode st node c) st.trie.length rest := by
        simp only [insertChars, hlk]
        rfl
      rw [heq]
      refine ⟨hwf2, hext1.trans hext2, hlt2, ?_⟩
      intro s0 h
      have h1 : wordNode (allocNode st node c).trie (s0 ++ [c]) = some st.trie.length := by
        rw [wordNode_snoc]
        exact ⟨node, hext1.word_some h, allocNode_lookup st node c hnode hlk⟩
      have h2 := hword2 (s0 ++ [c]) h1
      rwa [List.append_assoc, List.singleton_append] at h2
    · have hchild := wf.hedge node _ (lookupA_mem hlk)
      obtain ⟨hwf2, hext2, hlt2, hword2⟩ := ih st child wf hchild.2
      have heq : insertChars st node (c :: rest) = insertChars st child rest := by
        simp only [insertChars, hlk]
      rw [heq]
      refine ⟨hwf2, hext2, hlt2, ?_⟩
      intro s0 h
      have h1 : wordNode st.trie (s0 ++ [c]) = some child :=
        wordNode_snoc.mpr ⟨node, h, hlk⟩
      have h2 := hword2 (s0 ++ [c]) h1
      rwa [List.append_assoc, List.singleton_append] at h2

theorem insertPattern_spec {st : TrieSt} {done : List (List Char)} {p : List Char}
    (wf : TrieWF st) (oi : OutInv st done) (wi : WordsInv st done) :
    TrieWF (insertPattern st done.length p) ∧
      OutInv (insertPattern st done.length p) (done ++ [p]) ∧
      WordsInv (insertPattern st done.length p) (done ++ [p]) := by
  obtain ⟨wfr, extr, hltr, hwordr⟩ := insertChars_spec p st 0 wf wf.hpos
  have hpw : wordNode (insertChars st 0 p).1.trie p = some (insertChars st 0 p).2 := by
    simpa using hwordr [] rfl
  have oir : OutInv (insertChars st 0 p).1 done := by
    intro v s hword k
    by_cases hv : v < st.trie.length
    · have hold : wordNode st.trie s = some v := extr.word_old wf wf.hpos hv hword
      rw [extr.hout_old v hv]
      exact oi v s hold k
    · rw [extr.hout_new v (by omega)]
      simp only [List.not_mem_nil, false_iff]
      intro hk
      obtain ⟨w, hw⟩ := Option.isSome_iff_exists.mp (wi k s hk)
      have h2 : wordNode (insertChars st 0 p).1.trie s = some w :=
        extr.word_some (show wordNodeFrom st.trie 0 s = some w from hw)
      rw [hword] at h2
      cases h2
      exact absurd (word_lt wf hw) hv
  have hout2 : (insertPattern st done.length p).output =
      (insertChars st 0 p).1.output.set (insertChars st 0 p).2
        ((insertChars st 0 p).1.output.getD (insertChars st 0 p).2 [] ++ [done.length]) := rfl
  have hr2len : (insertChars st 0 p).2 < (insertChars st 0 p).1.output.length := by
    rw [wfr.hout_len]
    exact hltr
  have hout3 : ∀ v, (insertPattern st done.length p).output.getD v [] =
      if v = (insertChars st 0 p).2 then
        (insertChars st 0 p).1.output.getD (insertChars st 0 p).2 [] ++ [done.length]
      else (insertChars st 0 p).1.output.getD v [] := by
    intro v
    rw [hout2]
    by_cases hv : v = (insertChars st 0 p).2
    · subst hv
      rw [if_pos rfl, getD_set_self _ _ _ _ hr2len]
    · rw [if_neg hv, getD_set_ne _ _ _ _ _ (fun hh => hv hh.symm)]
  have wf' : TrieWF (insertPattern st done.length p) := by
    refine ⟨wfr.hfail_len, ?_, wfr.hpos, wfr.hfail0, wfr.hedge, wfr.hkeys, wfr.huniq,
      wfr.hreach⟩
    rw [hout2, List.length_set]
    exact wfr.hout_len
  refine ⟨wf', ?_, ?_⟩
  · intro v s hword k
    rw [hout3 v]
    by_cases hv : v = (insertChars st 0 p).2
    · subst hv
      rw [if_pos rfl]
      have hs : s = p := word_inj wfr _ s p hword hpw
      subst hs
      rw [List.mem_append]
      constructor
      · rintro (h1 | h2)
        · have hd := (oir _ s hword k).mp h1
          rw [List.get?_append (get?_some_lt hd)]
          exact hd
        · rcases List.mem_singleton.mp h2 with rfl
          exact List.get?_concat_length done s
      · intro hk
        by_cases hkd : k < done.length
        · rw [List.get?_append hkd] at hk
          exact Or.inl ((oir _ s hword k).mpr hk)
        · by_cases hke : k = done.length
          · exact Or.inr (by simp [hke])
          · rw [List.get?_eq_none.mpr (by simp; omega)] at hk
            cases hk
    · rw [if_neg hv]
      constructor
      · intro hk
        have hd := (oir v s hword k).mp hk
        rw [List.get?_append (get?_some_lt hd)]
        exact hd
      · intro hk
        by_cases hkd : k < done.length
        · rw [List.get?_append hkd] at hk
          exact (oir v s hword k).mpr hk
        · by_cases hke : k = done.length
          · subst hke
            rw [List.get?_concat_length] at hk
            cases hk
            have hword2 : wordNode (insertChars st 0 p).1.trie p = some v := hword
            rw [hword2] at hpw
            cases hpw
            exact absurd rfl hv
          · rw [List.get?_eq_none.mpr (by simp; omega)] at hk
            cases hk
  · intro k q hq
    by_cases hkd : k < done.length
    · rw [List.get?_append hkd] at hq
      obtain ⟨w, hw⟩ := Option.isSome_iff_exists.mp (wi k q hq)
      exact Option.isSome_iff_exists.mpr ⟨w, extr.word_some hw⟩
    · by_cases hke : k = done.length
      · subst hke
        rw [List.get?_concat_length] at hq
        cases hq
        exact Option.isSome_iff_exists.mpr ⟨_, hpw⟩
      · rw [List.get?_eq_none.mpr (by simp; omega)] at hq
        cases hq

theorem insertAll_spec :
    ∀ (l : List (List Char)) (st : TrieSt) (done : List (List Char)),
      TrieWF st → OutInv st done → WordsInv st done →
      TrieWF (insertAll st done.length l) ∧
        OutInv (insertAll st done.length l) (done ++ l) ∧
        WordsInv (insertAll st done.length l) (done ++ l) := by
  intro l
  induction l with
  | nil =>
    intro st done wf oi wi
    simpa [insertAll] using ⟨wf, oi, wi⟩
  | cons p rest ih =>
    intro st done wf oi wi
    obtain ⟨wf', oi', wi'⟩ := @insertPattern_spec st done p wf oi wi
    have h := ih (insertPattern st done.length p) (done ++ [p]) wf' oi' wi'
    rw [insertAll, show done.length + 1 = (done ++ [p]).length from by simp,
      show done ++ p :: rest = (done ++ [p]) ++ rest from by simp]
    exact h

theorem build_trie_spec (ps : List (List Char)) :
    TrieWF (build_trie ps) ∧ OutInv (build_trie ps) ps ∧ WordsInv (build_trie ps) ps := by
  have hrow : ∀ u : Nat, (([[]] : List (List (Char × Nat)))).getD u [] = [] := by
    intro u
    cases u <;> rfl
  have init_wf : TrieWF ⟨[[]], [0], [[]]⟩ := by
    refine ⟨rfl, rfl, Nat.one_pos, ?_, ?_, ?_, ?_, ?_⟩
    · intro x hx
      simpa using hx
    · intro u e he
      rw [hrow u] at he
      cases he
    · intro u
      rw [hrow u]
      exact List.nodup_nil
    · intro u1 u2 e1 e2 h1 h2 _
      rw [hrow u1] at h1
      cases h1
    · intro v hv
      have hv0 : v = 0 := by simpa using hv
      subst hv0
      exact ⟨[], rfl⟩
  have init_oi : OutInv ⟨[[]], [0], [[]]⟩ [] := by
    intro v s hword k
    cases s with
    | nil =>
      cases hword
      simp [getD_get?]
    | cons c s' =>
      rw [wordNode, wordNodeFrom] at hword
      rw [show (([[]] : List (List (Char × Nat)))).getD 0 [] = [] from rfl] at hword
      rw [show lookupA [] c = none from rfl] at hword
      cases hword
  have init_wi : WordsInv ⟨[[]], [0], [[]]⟩ [] := by
    intro k q hq
    rw [show ([] : List (List Char)).get? k = none from by cases k <;> rfl] at hq
    cases hq
  have h := insertAll_spec ps ⟨[[]], [0], [[]]⟩ [] init_wf init_oi init_wi
  simpa [build_trie] using h

/-! ## Shape of the built tables -/

theorem procChildren_trie (st : TrieSt) (cur : Nat) (l : List (Char × Nat)) :
    (procChildren st cur l).1.trie = st.trie := by
  induction l generalizing st with
  | nil => rfl
  | cons p rest ih =>
    obtain ⟨c, child⟩ := p
    simpa [procChildren] using ih _

theorem bfs_trie (fuel : Nat) (st : TrieSt) (q : List Nat) : (bfs st fuel q).trie = st.trie := by
  induction fuel generalizing st q with
  | zero => cases q <;> rfl
  | succ f ih =>
    cases q with
    | nil => rfl
    | cons cur rest => rw [bfs, ih, procChildren_trie]

theorem build_trie_shape (ps : List (List Char)) :
    (build ps).trie = (build_trie ps).trie.set 0 (wireRoot ((build_trie ps).trie.getD 0 [])) := by
  show (build_fail_links (build_trie ps)).trie = _
  rw [build_fail_links, bfs_trie]

theorem insertChars_trie_len (p : List Char) (st : TrieSt) (node : Nat) :
    st.trie.length ≤ ((insertChars st node p).1).trie.length := by
  induction p generalizing st node with
  | nil => exact Nat.le_refl _
  | cons c rest ih =>
    rw [insertChars]
    rcases h : lookupA (st.trie.getD node []) c with _ | child
    · exact le_trans (by simp) (ih _ _)
    · exact ih _ _

theorem insertPattern_trie_len (st : TrieSt) (k : Nat) (p : List Char) :
    st.trie.length ≤ (insertPattern st k p).trie.length :=
  insertChars_trie_len p st 0

theorem insertAll_trie_len (l : List (List Char)) (st : TrieSt) (k : Nat) :
    st.trie.length ≤ (insertAll st k l).trie.length := by
  induction l generalizing st k with
  | nil => exact Nat.le_refl _
  | cons p rest ih => exact le_trans (insertPattern_trie_len st k p) (ih _ _)

theorem build_trie_len_pos (ps : List (List Char)) : 0 < (build_trie ps).trie.length :=
  Nat.lt_of_lt_of_le (by decide) (insertAll_trie_len ps _ 0)

/-! ## The automaton built from no patterns (claim C5) -/

theorem build_nil_eq : build [] = ⟨[], [wireRoot []], [0], [[]]⟩ := rfl

theorem step_build_nil (c : Char) : step (build []) 0 c = 0 := by
  have ht : (build []).trie = [wireRoot []] := rfl
  have hf : (build []).fail = [0] := rfl
  simp only [step, ht, hf, walkFail_zero]
  rcases h : lookupA (([wireRoot []] : List (List (Char × Nat))).getD 0 []) c with _ | v
  · simp [h]
  · have hm : (c, v) ∈ wireRoot [] := lookupA_mem (by simpa using h)
    rcases wireRoot_value hm with h1 | h2
    · simp at h1
    · simp only [h, Option.getD_some]
      exact h2

theorem searchGo_build_nil (pos : Nat) (t : List Char) :
    searchGo (build []) 0 pos t = [] := by
  induction t generalizing pos with
  | nil => rfl
  | cons c rest ih =>
    have ho : (build []).output = [[]] := rfl
    rw [searchGo]
    simp only [step_build_nil]
    rw [ih]
    simp [emitAt, ho]

/-- C5 (corrected claim): `__init__` contains no validation at all, so an
empty pattern list is accepted without error and yields a working one-node
automaton whose `search` returns the empty match list on every text. -/
theorem C5_empty_pattern_list_accepted (t : List Char) : search (build []) t = [] :=
  searchGo_build_nil 0 t

/-- C5 counterexample to the claim as stated: `build []` raises nothing and
produces a usable automaton (its pattern table is empty and searching a
concrete text succeeds, returning no matches) instead of a `ValidationError`. -/
theorem C5_counterexample : (build []).patterns = [] ∧ search (build []) ['x', 'y'] = [] :=
  ⟨rfl, searchGo_build_nil 0 _⟩

/-! ## Claims C4 and C10: emission order -/

/-- C4 counterexample: with patterns `["b", "abc"]` and text `"abc"` the
code emits `(1, 0)` (for `"b"`) before `(0, 1)` (for `"abc"`), so the match
sequence is not non-decreasing in start offset. -/
theorem C4_counterexample :
    ¬ (search (build [['b'], ['a', 'b', 'c']]) ['a', 'b', 'c']).Pairwise
        (fun a b => a.1 ≤ b.1) := by
  intro h
  have he : search (build [['b'], ['a', 'b', 'c']]) ['a', 'b', 'c'] = [(1, 0), (0, 1)] := by
    decide
  rw [he] at h
  have h1 := (List.pairwise_cons.mp h).1 ((0 : Int), 1) (by simp)
  exact absurd h1 (by decide)

/-- C4 (corrected claim): the emitted sequence is non-decreasing in match
end offset (start offset plus pattern length minus one), not in start
offset: matches are emitted grouped by the text position where they end. -/
theorem C4_order_amended (ps : List (List Char)) (t : List Char) :
    ((search (build ps) t).map (endOff (build ps))).Pairwise (· ≤ ·) := by
  rw [List.pairwise_map]
  exact searchGo_endOff_pairwise _ 0 0 t

/-- C10: for every pattern list and text, the match list of `search` is
non-decreasing in match end offset `start_offset + pattern_length - 1`:
matches are emitted grouped by text position in left-to-right scan order. -/
theorem C10_end_offset_monotone (ps : List (List Char)) (t : List Char) :
    (search (build ps) t).Pairwise
      (fun a b => endOff (build ps) a ≤ endOff (build ps) b) :=
  searchGo_endOff_pairwise _ 0 0 t

/-! ## Claim C3: the canonical "ushers" scenario -/

/-- C3 counterexample: none of the three pairs demanded by the claim,
`(1, "he")`, `(0, "she")`, `(3, "hers")`, is produced on `"ushers"`. -/
theorem C3_counterexample :
    ((1 : Int), 0) ∉
        search (build [['h','e'], ['s','h','e'], ['h','i','s'], ['h','e','r','s']])
          ['u','s','h','e','r','s'] ∧
      ((0 : Int), 1) ∉
        search (build [['h','e'], ['s','h','e'], ['h','i','s'], ['h','e','r','s']])
          ['u','s','h','e','r','s'] ∧
      ((3 : Int), 3) ∉
        search (build [['h','e'], ['s','h','e'], ['h','i','s'], ['h','e','r','s']])
          ['u','s','h','e','r','s'] := by
  decide

/-- C3 (corrected claim): with patterns `["he","she","his","hers"]` and text
`"ushers"`, search yields exactly `(1, index of "she")`, `(2, index of "he")`
and `(2, index of "hers")`, in that order, and no match for `"his"`. -/
theorem C3_canonical_amended :
    search (build [['h','e'], ['s','h','e'], ['h','i','s'], ['h','e','r','s']])
        ['u','s','h','e','r','s'] = [(1, 1), (2, 0), (2, 3)] := by
  decide

/-! ## Claim C7: stored transitions -/

/-- C7 counterexample: after building from the single pattern `"a"`, the
root's children map an entry for `'0'` (to the root itself) although `'0'`
lies on no real trie edge of any pattern. -/
theorem C7_counterexample :
    ('0', 0) ∈ (build [['a']]).trie.getD 0 [] ∧
      ∀ row ∈ (build_trie [['a']]).trie, ∀ e ∈ row, e.1 ≠ '0' := by
  decide

/-- C7 (corrected claim): non-root nodes store exactly the real trie edges,
but the root's children are precomputed over the fixed printable alphabet:
they consist of the real root edges plus one entry `(c, 0)` for every
printable character `c` not on a real root edge; only symbols outside
`string.printable` are resolved lazily (to the root) at search time. -/
theorem C7_transitions_amended (ps : List (List Char)) :
    (∀ v, v ≠ 0 → (build ps).trie.get? v = (build_trie ps).trie.get? v) ∧
      (∀ c w, (c, w) ∈ (build ps).trie.getD 0 [] ↔
        (c, w) ∈ (build_trie ps).trie.getD 0 [] ∨
          (w = 0 ∧ c ∈ printable ∧
            lookupA ((build_trie ps).trie.getD 0 []) c = none)) := by
  have hs := build_trie_shape ps
  constructor
  · intro v hv
    rw [hs, List.get?_set_ne _ _ (Ne.symm hv)]
  · intro c w
    rw [hs, getD_set_self _ _ _ _ (build_trie_len_pos ps)]
    constructor
    · exact fun h => wireRoot_mem h
    · rintro (h | ⟨rfl, hp, hn⟩)
      · exact wireFold_mono h
      · exact wireFold_wired hp hn

/-- Witness for C7: at the concrete build from `["a"]`, node 1 stores the
same row as the raw trie, and the root row contains the wired entry
`('0', 0)`. -/
theorem C7_transitions_amended_witness :
    (build [['a']]).trie.get? 1 = (build_trie [['a']]).trie.get? 1 ∧
      ('0', 0) ∈ (build [['a']]).trie.getD 0 [] :=
  ⟨(C7_transitions_amended [['a']]).1 1 (by decide),
    ((C7_transitions_amended [['a']]).2 '0' 0).mpr (Or.inr ⟨rfl, by decide, by decide⟩)⟩

/-! ## Suffixes and the longest word suffix -/

theorem suffix_of_suffix_length_le {u v t : List Char} (hu : u <:+ t) (hv : v <:+ t)
    (h : u.length ≤ v.length) : u <:+ v := by
  obtain ⟨a, rfl⟩ := hu
  obtain ⟨b, hb⟩ := hv
  have hlen : b.length ≤ a.length := by
    have h1 := congrArg List.length hb
    simp only [List.length_append] at h1
    omega
  have ha : a = a.take b.length ++ a.drop b.length := (List.take_append_drop _ _).symm
  rw [ha, List.append_assoc] at hb
  have htl : b.length = (a.take b.length).length := by
    rw [List.length_take]
    omega
  have h2 := List.append_inj_right hb htl
  exact ⟨a.drop b.length, h2.symm⟩

theorem isWord_of_append {T : List (List (Char × Nat))} {u w : List Char}
    (h : (wordNode T (u ++ w)).isSome) : (wordNode T u).isSome := by
  rw [wordNode, wordNodeFrom_append] at h
  rcases hx : wordNodeFrom T 0 u with _ | x
  · rw [hx] at h; cases h
  · rw [wordNode, hx]; rfl

theorem maxWordSuffix_isWord (T : List (List (Char × Nat))) (u : List Char) :
    (wordNode T (maxWordSuffix T u)).isSome := by
  induction u with
  | nil => rfl
  | cons c rest ih =>
    rw [maxWordSuffix]
    by_cases h : isWord T (c :: rest)
    · rw [if_pos h]; exact h
    · rw [if_neg h]; exact ih

theorem maxWordSuffix_suffix (T : List (List (Char × Nat))) (u : List Char) :
    maxWordSuffix T u <:+ u := by
  induction u with
  | nil => exact List.suffix_rfl
  | cons c rest ih =>
    rw [maxWordSuffix]
    by_cases h : isWord T (c :: rest)
    · rw [if_pos h]
    · rw [if_neg h]
      exact ih.trans (List.suffix_cons c rest)

theorem maxWordSuffix_max {T : List (List (Char × Nat))} {z u : List Char}
    (hz : z <:+ u) (hw : (wordNode T z).isSome) :
    z.length ≤ (maxWordSuffix T u).length := by
  induction u with
  | nil =>
    rw [List.suffix_nil.mp hz]
    simp [maxWordSuffix]
  | cons c rest ih =>
    rw [maxWordSuffix]
    by_cases h : isWord T (c :: rest)
    · rw [if_pos h]
      exact hz.length_le
    · rw [if_neg h]
      rcases List.suffix_cons_iff.mp hz with h1 | h2
      · subst h1
        exact absurd hw h
      · exact ih h2

theorem maxWordSuffix_of_word {T : List (List (Char × Nat))} {u : List Char}
    (h : (wordNode T u).isSome) : maxWordSuffix T u = u := by
  cases u with
  | nil => rfl
  | cons c rest =>
    rw [maxWordSuffix, if_pos (show isWord T (c :: rest) = true from h)]

theorem maxWordSuffix_compose (T : List (List (Char × Nat))) (u : List Char) (c : Char) :
    maxWordSuffix T (u ++ [c]) = maxWordSuffix T (maxWordSuffix T u ++ [c]) := by
  induction u with
  | nil => rfl
  | cons a rest ih =>
    by_cases hu : isWord T (a :: rest)
    · rw [maxWordSuffix_of_word (show (wordNode T (a :: rest)).isSome from hu)]
    · have hnw : ¬ isWord T (a :: (rest ++ [c])) = true := by
        intro hc
        exact hu (@isWord_of_append T (a :: rest) [c] hc)
      rw [show (a :: rest) ++ [c] = a :: (rest ++ [c]) from rfl, maxWordSuffix, if_neg hnw]
      rw [show maxWordSuffix T (a :: rest) = maxWordSuffix T rest from by
        rw [maxWordSuffix, if_neg hu]]
      exact ih

/-! ## The intended failure targets and final outputs -/

theorem failNodeSpec_zero (T : List (List (Char × Nat))) : failNodeSpec T 0 = 0 := rfl

theorem finalOut_zero (T : List (List (Char × Nat))) (out : List (List Nat)) :
    finalOut T out 0 = out.getD 0 [] := rfl

theorem failNodeSpec_word {st : TrieSt} (wf : TrieWF st) (v : Nat) :
    wordNode st.trie (maxWordSuffix st.trie (nodeStr st.trie v).tail) =
      some (failNodeSpec st.trie v) := by
  obtain ⟨w, hw⟩ := Option.isSome_iff_exists.mp
    (maxWordSuffix_isWord st.trie (nodeStr st.trie v).tail)
  rw [failNodeSpec, hw]
  rfl

theorem failNodeSpec_depth_lt {st : TrieSt} (wf : TrieWF st) {v : Nat}
    (h : 1 ≤ depth st.trie v) :
    depth st.trie (failNodeSpec st.trie v) < depth st.trie v := by
  have hword := failNodeSpec_word wf v
  have hd : depth st.trie (failNodeSpec st.trie v) =
      (maxWordSuffix st.trie (nodeStr st.trie v).tail).length := depth_of_word wf hword
  have hsuf : (maxWordSuffix st.trie (nodeStr st.trie v).tail).length ≤
      (nodeStr st.trie v).tail.length := (maxWordSuffix_suffix _ _).length_le
  have htl : (nodeStr st.trie v).tail.length = depth st.trie v - 1 := by
    rw [List.length_tail]
    rfl
  omega

theorem finalOutF_congr {st : TrieSt} (wf : TrieWF st) (out : List (List Nat)) :
    ∀ f1 f2 v, depth st.trie v ≤ f1 → depth st.trie v ≤ f2 →
      finalOutF st.trie out f1 v = finalOutF st.trie out f2 v := by
  intro f1
  induction f1 using Nat.strong_induction_on with
  | _ f1 ih =>
    intro f2 v h1 h2
    by_cases hd2 : 2 ≤ depth st.trie v
    · rcases f1 with _ | g1
      · omega
      rcases f2 with _ | g2
      · omega
      have hlt := @failNodeSpec_depth_lt st wf v (by omega)
      rw [finalOutF_succ, finalOutF_succ, if_pos hd2, if_pos hd2,
        ih g1 (by omega) g2 (failNodeSpec st.trie v) (by omega) (by omega)]
    · have hall : ∀ g, finalOutF st.trie out g v = out.getD v [] := by
        intro g
        cases g
        · rfl
        · rw [finalOutF_succ, if_neg hd2]
      rw [hall f1, hall f2]

theorem finalOutF_stable {st : TrieSt} (wf : TrieWF st) (out : List (List Nat)) :
    ∀ fuel v, depth st.trie v ≤ fuel →
      finalOutF st.trie out fuel v = finalOut st.trie out v := by
  intro fuel v h
  exact finalOutF_congr wf out fuel (depth st.trie v) v h (Nat.le_refl _)

theorem finalOut_unfold {st : TrieSt} (wf : TrieWF st) (out : List (List Nat)) {v : Nat}
    (h2 : 2 ≤ depth st.trie v) :
    finalOut st.trie out v =
      out.getD v [] ++ finalOut st.trie out (failNodeSpec st.trie v) := by
  have hlt := @failNodeSpec_depth_lt st wf v (by omega)
  rw [finalOut]
  rcases hd : depth st.trie v with _ | d
  · omega
  · rw [finalOutF_succ, if_pos h2,
      finalOutF_stable wf out d (failNodeSpec st.trie v) (by omega)]

theorem finalOut_low {st : TrieSt} (out : List (List Nat)) {v : Nat}
    (h : depth st.trie v ≤ 1) : finalOut st.trie out v = out.getD v [] := by
  rw [finalOut]
  rcases hd : depth st.trie v with _ | d
  · rfl
  · rw [finalOutF, if_neg (by omega)]

/-! ## The wired trie -/

theorem wireRoot_lookup_some {row : List (Char × Nat)} {c : Char} {v : Nat}
    (h : lookupA row c = some v) : lookupA (wireRoot row) c = some v := by
  show lookupA (printable.foldl _ row) c = some v
  generalize printable = L
  induction L generalizing row with
  | nil => exact h
  | cons a L ih =>
    rw [List.foldl_cons]
    by_cases hs : (lookupA row a).isSome
    · rw [if_pos hs]
      exact ih h
    · rw [if_neg hs]
      exact ih (lookupA_append_some h)

theorem wiredTrie_len (st : TrieSt) : (wiredTrie st).length = st.trie.length :=
  List.length_set _ _ _

theorem wiredTrie_row_ne (st : TrieSt) (v : Nat) (hv : v ≠ 0) :
    (wiredTrie st).getD v [] = st.trie.getD v [] :=
  getD_set_ne _ _ _ _ _ (fun h => hv h.symm)

theorem wiredTrie_root (st : TrieSt) (h : 0 < st.trie.length) :
    (wiredTrie st).getD 0 [] = wireRoot (st.trie.getD 0 []) :=
  getD_set_self _ _ _ _ h

theorem wiredTrie_goto_root {st : TrieSt} (wf : TrieWF st) (c : Char) :
    (lookupA ((wiredTrie st).getD 0 []) c).getD 0 =
      (lookupA (st.trie.getD 0 []) c).getD 0 := by
  rw [wiredTrie_root st wf.hpos]
  rcases h : lookupA (st.trie.getD 0 []) c with _ | v
  · rcases h2 : lookupA (wireRoot (st.trie.getD 0 [])) c with _ | w
    · rfl
    · have hm := lookupA_mem h2
      rcases wireRoot_value hm with h3 | h3
      · rw [lookupA_of_mem_nodup (wf.hkeys 0) h3] at h
        cases h
      · simpa using h3
  · rw [wireRoot_lookup_some h]

/-! ## The failure walk computes the longest word suffix -/

theorem walk_step_spec {st : TrieSt} (wf : TrieWF st) :
    ∀ (len : Nat), ∀ (m : List Char), m.length ≤ len →
      ∀ (fuel v : Nat) (c : Char) (fl : List Nat),
      wordNode st.trie m = some v →
      (∀ w z, wordNode st.trie z = some w → z.length ≤ m.length →
        fl.getD w 0 = failNodeSpec st.trie w) →
      m.length < fuel →
      (lookupA ((wiredTrie st).getD (walkFail (wiredTrie st) fl fuel v c) []) c).getD 0 =
        (wordNode st.trie (maxWordSuffix st.trie (m ++ [c]))).getD 0 := by
  intro len
  induction len using Nat.strong_induction_on with
  | _ len ih =>
    intro m hm fuel v c fl hword hfl hfuel
    rcases fuel with _ | f
    · omega
    by_cases hv0 : v = 0
    · subst hv0
      have hm0 : m = [] := word_nil_of_zero wf hword
      subst hm0
      rw [walkFail_succ, if_neg (by simp)]
      rw [wiredTrie_goto_root wf c]
      rcases hr : lookupA (st.trie.getD 0 []) c with _ | w
      · have hnw : ¬ isWord st.trie [c] = true := by
          rw [isWord, wordNode, wordNodeFrom_single, hr]
          simp
        rw [show ([] ++ [c] : List Char) = [c] from rfl, maxWordSuffix, if_neg hnw]
        rfl
      · have hwd : isWord st.trie [c] = true := by
          rw [isWord, wordNode, wordNodeFrom_single, hr]
          rfl
        rw [show ([] ++ [c] : List Char) = [c] from rfl, maxWordSuffix, if_pos hwd]
        rw [wordNode, wordNodeFrom_single, hr]
    · rcases hlk : lookupA ((wiredTrie st).getD v []) c with _ | w
      · rw [walkFail_succ, if_pos ⟨hv0, hlk⟩]
        have hmne : m ≠ [] := by
          intro he
          subst he
          cases hword
          exact hv0 rfl
        have hflv := hfl v m hword (Nat.le_refl _)
        have hstr : nodeStr st.trie v = m := nodeStr_of_word wf hword
        have hm1word : wordNode st.trie (maxWordSuffix st.trie m.tail) =
            some (failNodeSpec st.trie v) := by
          have h := failNodeSpec_word wf v
          rw [hstr] at h
          exact h
        have hlen1 : (maxWordSuffix st.trie m.tail).length ≤ m.tail.length :=
          (maxWordSuffix_suffix _ _).length_le
        have hlentail : m.tail.length = m.length - 1 := List.length_tail m
        have hmlen : 1 ≤ m.length := by
          cases m
          · cases hmne rfl
          · simp
        have hrec := ih (len - 1) (by omega) (maxWordSuffix st.trie m.tail) (by omega)
          f (failNodeSpec st.trie v) c fl hm1word
          (fun w z hz hlz => hfl w z hz (by omega)) (by omega)
        rw [hflv, hrec]
        have hms : maxWordSuffix st.trie (m ++ [c]) =
            maxWordSuffix st.trie (maxWordSuffix st.trie m.tail ++ [c]) := by
          rcases m with _ | ⟨a, t⟩
          · cases hmne rfl
          · have hreal : lookupA (st.trie.getD v []) c = none := by
              rwa [wiredTrie_row_ne st v hv0] at hlk
            have hnw : ¬ isWord st.trie (a :: (t ++ [c])) = true := by
              intro hw
              obtain ⟨w, hw'⟩ := Option.isSome_iff_exists.mp hw
              obtain ⟨u, hu, he⟩ :=
                wordNode_snoc.mp (show wordNode st.trie ((a :: t) ++ [c]) = some w from hw')
              rw [hword] at hu
              cases hu
              rw [hreal] at he
              cases he
            rw [show (a :: t) ++ [c] = a :: (t ++ [c]) from rfl, maxWordSuffix, if_neg hnw]
            rw [maxWordSuffix_compose st.trie t c]
            rfl
        rw [hms]
      · rw [walkFail_succ, if_neg (fun hc => by rw [hlk] at hc; cases hc.2)]
        have hreal : lookupA (st.trie.getD v []) c = some w := by
          rwa [wiredTrie_row_ne st v hv0] at hlk
        have hmcw : wordNode st.trie (m ++ [c]) = some w :=
          wordNode_snoc.mpr ⟨v, hword, hreal⟩
        rw [maxWordSuffix_of_word (by rw [hmcw]; rfl)]
        rw [hlk, hmcw]

/-! ## Processing one BFS node -/

theorem rowTargets_nodup {st : TrieSt} (wf : TrieWF st) (u : Nat) :
    ((st.trie.getD u []).map Prod.snd).Nodup := by
  have hrownd : (st.trie.getD u []).Nodup := (wf.hkeys u).of_map
  refine hrownd.map_on ?_
  intro e1 h1 e2 h2 heq
  obtain ⟨-, hc⟩ := wf.huniq u u e1 e2 h1 h2 heq
  obtain ⟨a1, b1⟩ := e1
  obtain ⟨a2, b2⟩ := e2
  cases hc
  cases heq
  rfl

theorem procChildren_spec {st1 : TrieSt} (wf1 : TrieWF st1) :
    ∀ (l : List (Char × Nat)) (stc : TrieSt) (cur : Nat) (scur : List Char),
      stc.trie = wiredTrie st1 →
      stc.fail.length = st1.trie.length →
      stc.output.length = st1.trie.length →
      wordNode st1.trie scur = some cur →
      scur ≠ [] →
      (∀ e ∈ l, e ∈ st1.trie.getD cur []) →
      (l.map Prod.snd).Nodup →
      (∀ w, w < st1.trie.length → depth st1.trie w ≤ depth st1.trie cur →
        stc.fail.getD w 0 = failNodeSpec st1.trie w ∧
        stc.output.getD w [] = finalOut st1.trie st1.output w) →
      (∀ e ∈ l, stc.output.getD e.2 [] = st1.output.getD e.2 []) →
      (procChildren stc cur l).1.trie = stc.trie ∧
      (procChildren stc cur l).1.fail.length = stc.fail.length ∧
      (procChildren stc cur l).1.output.length = stc.output.length ∧
      (procChildren stc cur l).2 = l.map Prod.snd ∧
      (∀ w : Nat, w ∉ l.map Prod.snd →
        (procChildren stc cur l).1.fail.getD w 0 = stc.fail.getD w 0 ∧
        (procChildren stc cur l).1.output.getD w [] = stc.output.getD w []) ∧
      (∀ e ∈ l,
        (procChildren stc cur l).1.fail.getD e.2 0 = failNodeSpec st1.trie e.2 ∧
        (procChildren stc cur l).1.output.getD e.2 [] =
          finalOut st1.trie st1.output e.2) := by
  intro l
  induction l with
  | nil =>
    intro stc cur scur _ _ _ _ _ _ _ _ _
    exact ⟨rfl, rfl, rfl, rfl, fun w _ => ⟨rfl, rfl⟩,
      fun e he => absurd he (List.not_mem_nil e)⟩
  | cons e0 rest ih =>
    obtain ⟨c, child⟩ := e0
    intro stc cur scur htrie hflen holen hscur hsne hrow hnodup hdisc hraw
    have hcurlt : cur < st1.trie.length := word_lt wf1 hscur
    have hmem : (c, child) ∈ st1.trie.getD cur [] := hrow _ (List.mem_cons_self _ _)
    have hedge := wf1.hedge cur _ hmem
    have hchildw : wordNode st1.trie (scur ++ [c]) = some child :=
      wordNode_snoc.mpr ⟨cur, hscur, lookupA_of_mem_nodup (wf1.hkeys cur) hmem⟩
    have hdcur : depth st1.trie cur = scur.length := depth_of_word wf1 hscur
    have hdchild : depth st1.trie child = scur.length + 1 := by
      rw [depth_of_word wf1 hchildw, List.length_append]
      rfl
    have hscurpos : 1 ≤ scur.length := by
      cases scur
      · cases hsne rfl
      · simp
    have hcurfail : stc.fail.getD cur 0 = failNodeSpec st1.trie cur :=
      (hdisc cur hcurlt (Nat.le_refl _)).1
    have hm1word : wordNode st1.trie (maxWordSuffix st1.trie scur.tail) =
        some (failNodeSpec st1.trie cur) := by
      have h := failNodeSpec_word wf1 cur
      rw [nodeStr_of_word wf1 hscur] at h
      exact h
    have hm1len : (maxWordSuffix st1.trie scur.tail).length ≤ scur.length - 1 := by
      have h := (maxWordSuffix_suffix st1.trie scur.tail).length_le
      rw [List.length_tail] at h
      exact h
    have hcurlen := word_len_le wf1 hscur
    have hwalk := walk_step_spec wf1 (maxWordSuffix st1.trie scur.tail).length
      (maxWordSuffix st1.trie scur.tail) (Nat.le_refl _) ((wiredTrie st1).length)
      (failNodeSpec st1.trie cur) c stc.fail hm1word
      (fun w z hz hlz => by
        refine (hdisc w (word_lt wf1 hz) ?_).1
        rw [depth_of_word wf1 hz]
        omega)
      (by
        rw [wiredTrie_len]
        omega)
    have hfs2 : failNodeSpec st1.trie child =
        (wordNode st1.trie (maxWordSuffix st1.trie
          (maxWordSuffix st1.trie scur.tail ++ [c]))).getD 0 := by
      rw [failNodeSpec, nodeStr_of_word wf1 hchildw]
      rcases scur with _ | ⟨a, t⟩
      · cases hsne rfl
      · rw [show ((a :: t) ++ [c]).tail = t ++ [c] from rfl, maxWordSuffix_compose]
        rfl
    have hfs : (lookupA (stc.trie.getD
          (walkFail stc.trie stc.fail stc.trie.length (stc.fail.getD cur 0) c) []) c).getD 0 =
        failNodeSpec st1.trie child := by
      rw [hcurfail, htrie, hwalk]
      exact hfs2.symm
    have hun : procChildren stc cur ((c, child) :: rest) =
        ((procChildren
          { stc with
            fail := stc.fail.set child (failNodeSpec st1.trie child),
            output := stc.output.set child
              (stc.output.getD child [] ++
                stc.output.getD (failNodeSpec st1.trie child) []) }
          cur rest).1,
         child :: (procChildren
          { stc with
            fail := stc.fail.set child (failNodeSpec st1.trie child),
            output := stc.output.set child
              (stc.output.getD child [] ++
                stc.output.getD (failNodeSpec st1.trie child) []) }
          cur rest).2) := by
      conv_lhs => rw [procChildren]
      rw [hfs]
    have hnodup2 : (child :: rest.map Prod.snd).Nodup := hnodup
    have hchne : child ∉ rest.map Prod.snd := (List.nodup_cons.mp hnodup2).1
    have hrestnd : (rest.map Prod.snd).Nodup := (List.nodup_cons.mp hnodup2).2
    have hfslt : failNodeSpec st1.trie child < st1.trie.length :=
      word_lt wf1 (failNodeSpec_word wf1 child)
    have hfsd : depth st1.trie (failNodeSpec st1.trie child) ≤ depth st1.trie cur := by
      have h := @failNodeSpec_depth_lt st1 wf1 child (by omega)
      omega
    have hchildflen : child < stc.fail.length := by
      rw [hflen]
      exact hedge.2
    have hchildolen : child < stc.output.length := by
      rw [holen]
      exact hedge.2
    obtain ⟨ihtrie, ihflen, iholen, ihenq, ihuntouched, ihfinal⟩ :=
      ih { stc with
            fail := stc.fail.set child (failNodeSpec st1.trie child),
            output := stc.output.set child
              (stc.output.getD child [] ++
                stc.output.getD (failNodeSpec st1.trie child) []) }
        cur scur htrie
        (by
          show (stc.fail.set _ _).length = _
          rw [List.length_set]
          exact hflen)
        (by
          show (stc.output.set _ _).length = _
          rw [List.length_set]
          exact holen)
        hscur hsne
        (fun e he => hrow e (List.mem_cons_of_mem _ he))
        hrestnd
        (by
          intro w hw hdw
          have hwne : child ≠ w := by
            intro hh
            subst hh
            omega
          show (stc.fail.set child _).getD w 0 = _ ∧ (stc.output.set child _).getD w [] = _
          rw [getD_set_ne _ _ _ _ _ hwne, getD_set_ne _ _ _ _ _ hwne]
          exact hdisc w hw hdw)
        (by
          intro e he
          have hne : child ≠ e.2 := by
            intro hh
            exact hchne (hh ▸ List.mem_map_of_mem Prod.snd he)
          show (stc.output.set child _).getD e.2 [] = _
          rw [getD_set_ne _ _ _ _ _ hne]
          exact hraw e (List.mem_cons_of_mem _ he))
    rw [hun]
    refine ⟨?_, ?_, ?_, ?_, ?_, ?_⟩
    · rw [ihtrie]
    · rw [ihflen]
      show (stc.fail.set _ _).length = _
      rw [List.length_set]
    · rw [iholen]
      show (stc.output.set _ _).length = _
      rw [List.length_set]
    · show child :: _ = _
      rw [ihenq]
      rfl
    · intro w hw
      have hw1 : w ≠ child := by
        intro hh
        exact hw (by rw [hh]; exact List.mem_cons_self _ _)
      have hw2 : w ∉ rest.map Prod.snd := by
        intro hh
        exact hw (List.mem_cons_of_mem _ hh)
      obtain ⟨hfw, how⟩ := ihuntouched w hw2
      refine ⟨?_, ?_⟩
      · rw [hfw]
        show (stc.fail.set child _).getD w 0 = _
        rw [getD_set_ne _ _ _ _ _ (fun hh => hw1 hh.symm)]
      · rw [how]
        show (stc.output.set child _).getD w [] = _
        rw [getD_set_ne _ _ _ _ _ (fun hh => hw1 hh.symm)]
    · intro e he
      rcases List.mem_cons.mp he with he1 | he2
      · subst he1
        obtain ⟨hfw, how⟩ := ihuntouched child hchne
        refine ⟨?_, ?_⟩
        · show (procChildren _ cur rest).1.fail.getD child 0 = _
          rw [hfw]
          show (stc.fail.set child _).getD child 0 = _
          rw [getD_set_self _ _ _ _ hchildflen]
        · show (procChildren _ cur rest).1.output.getD child [] = _
          rw [how]
          show (stc.output.set child _).getD child [] = _
          rw [getD_set_self _ _ _ _ hchildolen]
          rw [hraw _ (List.mem_cons_self _ _)]
          rw [(hdisc _ hfslt hfsd).2]
          rw [@finalOut_unfold st1 wf1 st1.output child (by omega)]
      · exact ihfinal e he2

/-! ## The BFS loop computes the intended tables -/

theorem bfs_nil (st : TrieSt) (fuel : Nat) : bfs st fuel [] = st := by
  cases fuel <;> rfl

theorem parent_of_node {st : TrieSt} (wf : TrieWF st) {v : Nat} (hv1 : 1 ≤ v)
    (hvn : v < st.trie.length) :
    ∃ u c, (c, v) ∈ st.trie.getD u [] ∧ u < st.trie.length ∧
      depth st.trie u + 1 = depth st.trie v := by
  obtain ⟨s, hs⟩ := wf.hreach v hvn
  rcases List.eq_nil_or_concat s with rfl | ⟨a, c, rfl⟩
  · cases hs
    omega
  · rw [List.concat_eq_append] at hs
    obtain ⟨u, hu, he⟩ := wordNode_snoc.mp hs
    refine ⟨u, c, lookupA_mem he, word_lt wf hu, ?_⟩
    rw [depth_of_word wf hu, depth_of_word wf hs, List.length_append]
    rfl

theorem bfs_done_values {st1 : TrieSt} (wf1 : TrieWF st1) (stc : TrieSt) (done : List Nat)
    (hfin : ∀ v ∈ done, stc.fail.getD v 0 = failNodeSpec st1.trie v ∧
      stc.output.getD v [] = finalOut st1.trie st1.output v)
    (hdisc : ∀ v : Nat, v ∈ done ↔
      ∃ u, (u ∈ done ∨ u = 0) ∧ ∃ c, (c, v) ∈ st1.trie.getD u []) :
    ∀ v, 1 ≤ v → v < st1.trie.length →
      stc.fail.getD v 0 = failNodeSpec st1.trie v ∧
      stc.output.getD v [] = finalOut st1.trie st1.output v := by
  have cover : ∀ d v, depth st1.trie v ≤ d → 1 ≤ v → v < st1.trie.length → v ∈ done := by
    intro d
    induction d with
    | zero =>
      intro v hdv hv1 hvn
      obtain ⟨u, c, hm, hun, hdu⟩ := parent_of_node wf1 hv1 hvn
      omega
    | succ d ihd =>
      intro v hdv hv1 hvn
      obtain ⟨u, c, hm, hun, hdu⟩ := parent_of_node wf1 hv1 hvn
      refine (hdisc v).mpr ?_
      by_cases hu0 : u = 0
      · exact ⟨0, Or.inr rfl, c, hu0 ▸ hm⟩
      · exact ⟨u, Or.inl (ihd u (by omega) (by omega) hun), c, hm⟩
  exact fun v h1 h2 => hfin v (cover (depth st1.trie v) v (Nat.le_refl _) h1 h2)

theorem bfs_spec {st1 : TrieSt} (wf1 : TrieWF st1) :
    ∀ (fuel : Nat) (stc : TrieSt) (done queue : List Nat),
      stc.trie = wiredTrie st1 →
      stc.fail.length = st1.trie.length →
      stc.output.length = st1.trie.length →
      (done ++ queue).Nodup →
      (∀ v ∈ done ++ queue, 1 ≤ v ∧ v < st1.trie.length) →
      (∀ v ∈ done ++ queue,
        stc.fail.getD v 0 = failNodeSpec st1.trie v ∧
        stc.output.getD v [] = finalOut st1.trie st1.output v) →
      (stc.fail.getD 0 0 = 0 ∧ stc.output.getD 0 [] = st1.output.getD 0 []) →
      (∀ v, v < st1.trie.length → v ∉ done ++ queue → v ≠ 0 →
        stc.output.getD v [] = st1.output.getD v []) →
      (∀ v : Nat, v ∈ done ++ queue ↔
        ∃ u, (u ∈ done ∨ u = 0) ∧ ∃ c, (c, v) ∈ st1.trie.getD u []) →
      queue.Pairwise (fun a b => depth st1.trie a ≤ depth st1.trie b) →
      (∀ a ∈ queue, ∀ b ∈ queue, depth st1.trie b ≤ depth st1.trie a + 1) →
      st1.trie.length ≤ fuel + done.length + 1 →
      (bfs stc fuel queue).trie = wiredTrie st1 ∧
      (bfs stc fuel queue).fail.length = st1.trie.length ∧
      (bfs stc fuel queue).output.length = st1.trie.length ∧
      (bfs stc fuel queue).fail.getD 0 0 = 0 ∧
      (bfs stc fuel queue).output.getD 0 [] = st1.output.getD 0 [] ∧
      (∀ v, 1 ≤ v → v < st1.trie.length →
        (bfs stc fuel queue).fail.getD v 0 = failNodeSpec st1.trie v ∧
        (bfs stc fuel queue).output.getD v [] = finalOut st1.trie st1.output v) := by
  intro fuel
  induction fuel with
  | zero =>
    intro stc done queue htrie hflen holen hnd hbnd hfin hroot hraw hdisc hqsort hqlvl hfuel
    have hqe : queue = [] := by
      rcases hq : queue with _ | ⟨q, qs⟩
      · rfl
      · exfalso
        subst hq
        have hnodup0 : (0 :: (done ++ q :: qs)).Nodup := by
          rw [List.nodup_cons]
          refine ⟨fun h => ?_, hnd⟩
          have := hbnd 0 h
          omega
        have hsub : (0 :: (done ++ q :: qs)) ⊆ List.range st1.trie.length := by
          intro v hv
          rcases List.mem_cons.mp hv with h | h
          · subst h
            exact List.mem_range.mpr wf1.hpos
          · exact List.mem_range.mpr (hbnd v h).2
        have hlen := (List.subperm_of_subset hnodup0 hsub).length_le
        simp only [List.length_cons, List.length_append, List.length_range] at hlen
        omega
    subst hqe
    rw [bfs_nil]
    refine ⟨htrie, hflen, holen, hroot.1, hroot.2, ?_⟩
    exact bfs_done_values wf1 stc done
      (fun v hv => hfin v (by simpa using hv))
      (fun v => by simpa using hdisc v)
  | succ f ihf =>
    intro stc done queue htrie hflen holen hnd hbnd hfin hroot hraw hdisc hqsort hqlvl hfuel
    rcases queue with _ | ⟨cur, restq⟩
    · rw [bfs_nil]
      refine ⟨htrie, hflen, holen, hroot.1, hroot.2, ?_⟩
      exact bfs_done_values wf1 stc done
        (fun v hv => hfin v (by simpa using hv))
        (fun v => by simpa using hdisc v)
    · have hcur_mem : cur ∈ done ++ cur :: restq := by simp
      obtain ⟨hcur1, hcurn⟩ := hbnd cur hcur_mem
      have hscur : wordNode st1.trie (nodeStr st1.trie cur) = some cur :=
        nodeStr_word wf1 hcurn
      have hsne : nodeStr st1.trie cur ≠ [] := by
        intro h
        rw [h] at hscur
        cases hscur
        omega
      have hroweq : stc.trie.getD cur [] = st1.trie.getD cur [] := by
        rw [htrie, wiredTrie_row_ne st1 cur (by omega)]
      have hch_depth : ∀ e ∈ st1.trie.getD cur [],
          depth st1.trie e.2 = depth st1.trie cur + 1 := by
        intro e he
        obtain ⟨c0, v0⟩ := e
        have hw : wordNode st1.trie (nodeStr st1.trie cur ++ [c0]) = some v0 :=
          wordNode_snoc.mpr ⟨cur, hscur, lookupA_of_mem_nodup (wf1.hkeys cur) he⟩
        rw [depth_of_word wf1 hw, List.length_append]
        rfl
      have hch_bnd : ∀ e ∈ st1.trie.getD cur [], cur < e.2 ∧ e.2 < st1.trie.length :=
        fun e he => wf1.hedge cur e he
      have hcur_nd : cur ∉ done := by
        intro h
        exact List.disjoint_of_nodup_append hnd h (List.mem_cons_self _ _)
      have hch_undisc : ∀ e ∈ st1.trie.getD cur [], e.2 ∉ done ++ cur :: restq := by
        intro e he hmem
        obtain ⟨u, hu, c2, hm2⟩ := (hdisc e.2).mp hmem
        obtain ⟨hueq, -⟩ := wf1.huniq u cur (c2, e.2) e hm2 he rfl
        subst hueq
        rcases hu with h | h
        · exact hcur_nd h
        · omega
      have hdisc_all : ∀ w, w < st1.trie.length →
          depth st1.trie w ≤ depth st1.trie cur →
          stc.fail.getD w 0 = failNodeSpec st1.trie w ∧
          stc.output.getD w [] = finalOut st1.trie st1.output w := by
        have hmem_all : ∀ d w, depth st1.trie w ≤ d → w < st1.trie.length →
            depth st1.trie w ≤ depth st1.trie cur →
            w = 0 ∨ w ∈ done ++ cur :: restq := by
          intro d
          induction d with
          | zero =>
            intro w hdw hwn hwc
            by_cases h0 : w = 0
            · exact Or.inl h0
            · obtain ⟨u, c0, hm, hun, hdu⟩ := parent_of_node wf1 (by omega) hwn
              omega
          | succ d ihd =>
            intro w hdw hwn hwc
            by_cases h0 : w = 0
            · exact Or.inl h0
            · obtain ⟨u, c0, hm, hun, hdu⟩ := parent_of_node wf1 (by omega) hwn
              have hu' := ihd u (by omega) hun (by omega)
              have hu2 : u ∈ done ∨ u = 0 := by
                rcases hu' with h | h
                · exact Or.inr h
                · rcases List.mem_append.mp h with h1 | h2
                  · exact Or.inl h1
                  · exfalso
                    have hge : depth st1.trie cur ≤ depth st1.trie u := by
                      rcases List.mem_cons.mp h2 with h3 | h4
                      · rw [h3]
                      · exact (List.pairwise_cons.mp hqsort).1 u h4
                    omega
              exact Or.inr ((hdisc w).mpr ⟨u, hu2, c0, hm⟩)
        intro w hwn hwc
        rcases hmem_all (depth st1.trie w) w (Nat.le_refl _) hwn hwc with h0 | hm
        · subst h0
          exact ⟨by rw [hroot.1, failNodeSpec_zero], by rw [hroot.2, finalOut_zero]⟩
        · exact hfin w hm
      have hraw_ch : ∀ e ∈ st1.trie.getD cur [],
          stc.output.getD e.2 [] = st1.output.getD e.2 [] := by
        intro e he
        refine hraw e.2 (hch_bnd e he).2 (hch_undisc e he) ?_
        have := (hch_bnd e he).1
        omega
      obtain ⟨ptrie, pflen, polen, penq, puntouched, pfinal⟩ :=
        procChildren_spec wf1 (st1.trie.getD cur []) stc cur (nodeStr st1.trie cur)
          htrie hflen holen hscur hsne (fun e he => he) (rowTargets_nodup wf1 cur)
          hdisc_all hraw_ch
      have hbfseq : bfs stc (f + 1) (cur :: restq) =
          bfs (procChildren stc cur (stc.trie.getD cur [])).1 f
            (restq ++ (procChildren stc cur (stc.trie.getD cur [])).2) := rfl
      rw [hbfseq, hroweq, penq]
      have hchmem : ∀ v ∈ (st1.trie.getD cur []).map Prod.snd,
          ∃ e ∈ st1.trie.getD cur [], e.2 = v := by
        intro v hv
        obtain ⟨e, he, hev⟩ := List.mem_map.mp hv
        exact ⟨e, he, hev⟩
      have hch_nodisc : ∀ v ∈ (st1.trie.getD cur []).map Prod.snd,
          v ∉ done ++ cur :: restq := by
        intro v hv
        obtain ⟨e, he, hev⟩ := hchmem v hv
        exact hev ▸ hch_undisc e he
      have holdset : ∀ v : Nat, v ∈ done ++ cur :: restq →
          v ∈ (done ++ [cur]) ++ (restq ++ (st1.trie.getD cur []).map Prod.snd) := by
        intro v hv
        rcases List.mem_append.mp hv with h | h
        · simp [h]
        · rcases List.mem_cons.mp h with h | h
          · simp [h]
          · simp [h]
      have hnewold : ∀ v : Nat,
          v ∈ (done ++ [cur]) ++ (restq ++ (st1.trie.getD cur []).map Prod.snd) →
          v ∈ done ++ cur :: restq ∨ v ∈ (st1.trie.getD cur []).map Prod.snd := by
        intro v hv
        rcases List.mem_append.mp hv with h | h
        · rcases List.mem_append.mp h with h | h
          · exact Or.inl (List.mem_append.mpr (Or.inl h))
          · rcases List.mem_singleton.mp h with rfl
            exact Or.inl (by simp)
        · rcases List.mem_append.mp h with h | h
          · exact Or.inl (by simp [h])
          · exact Or.inr h
      refine ihf (procChildren stc cur (st1.trie.getD cur [])).1 (done ++ [cur])
        (restq ++ (st1.trie.getD cur []).map Prod.snd)
        (by rw [ptrie, htrie]) (by rw [pflen, hflen]) (by rw [polen, holen])
        ?_ ?_ ?_ ?_ ?_ ?_ ?_ ?_ ?_
      · rw [← List.append_assoc, List.nodup_append]
        refine ⟨?_, rowTargets_nodup wf1 cur, ?_⟩
        · have heq2 : (done ++ [cur]) ++ restq = done ++ cur :: restq := by simp
          rw [heq2]
          exact hnd
        · intro a ha hb
          have heq2 : (done ++ [cur]) ++ restq = done ++ cur :: restq := by simp
          rw [heq2] at ha
          exact hch_nodisc a hb ha
      · intro v hv
        rcases hnewold v hv with h | h
        · exact hbnd v h
        · obtain ⟨e, he, hev⟩ := hchmem v h
          have h1 := hch_bnd e he
          omega
      · intro v hv
        rcases hnewold v hv with h | h
        · have hnotch : v ∉ (st1.trie.getD cur []).map Prod.snd := by
            intro hc
            exact hch_nodisc v hc h
          obtain ⟨hf1, hf2⟩ := puntouched v hnotch
          rw [hf1, hf2]
          exact hfin v h
        · obtain ⟨e, he, hev⟩ := hchmem v h
          subst hev
          exact pfinal e he
      · have h0 : (0 : Nat) ∉ (st1.trie.getD cur []).map Prod.snd := by
          intro hc
          obtain ⟨e, he, hev⟩ := hchmem 0 hc
          have := (hch_bnd e he).1
          omega
        obtain ⟨hf1, hf2⟩ := puntouched 0 h0
        exact ⟨by rw [hf1]; exact hroot.1, by rw [hf2]; exact hroot.2⟩
      · intro v hvn hvnot hv0
        have hnotch : v ∉ (st1.trie.getD cur []).map Prod.snd := by
          intro hc
          exact hvnot (List.mem_append.mpr (Or.inr (List.mem_append.mpr (Or.inr hc))))
        have hnotold : v ∉ done ++ cur :: restq := fun ho => hvnot (holdset v ho)
        obtain ⟨-, hf2⟩ := puntouched v hnotch
        rw [hf2]
        exact hraw v hvn hnotold hv0
      · intro v
        constructor
        · intro hv
          rcases hnewold v hv with h | h
          · obtain ⟨u, hu, c2, hm⟩ := (hdisc v).mp h
            refine ⟨u, ?_, c2, hm⟩
            rcases hu with h1 | h1
            · exact Or.inl (by simp [h1])
            · exact Or.inr h1
          · obtain ⟨e, he, hev⟩ := hchmem v h
            obtain ⟨c0, v0⟩ := e
            cases hev
            exact ⟨cur, Or.inl (by simp), c0, he⟩
        · rintro ⟨u, hu, c2, hm⟩
          rcases hu with h1 | h1
          · rcases List.mem_append.mp h1 with h2 | h2
            · exact holdset v ((hdisc v).mpr ⟨u, Or.inl h2, c2, hm⟩)
            · rw [List.mem_singleton.mp h2] at hm
              have hvch : v ∈ (st1.trie.getD cur []).map Prod.snd :=
                List.mem_map.mpr ⟨(c2, v), hm, rfl⟩
              exact List.mem_append.mpr (Or.inr (List.mem_append.mpr (Or.inr hvch)))
          · exact holdset v ((hdisc v).mpr ⟨u, Or.inr h1, c2, hm⟩)
      · rw [List.pairwise_append]
        refine ⟨(List.pairwise_cons.mp hqsort).2, ?_, ?_⟩
        · refine pairwise_of_mem_pairs ?_
          intro a ha b hb
          obtain ⟨ea, hea, heva⟩ := hchmem a ha
          obtain ⟨eb, heb, hevb⟩ := hchmem b hb
          rw [← heva, ← hevb, hch_depth ea hea, hch_depth eb heb]
        · intro a ha b hb
          obtain ⟨eb, heb, hevb⟩ := hchmem b hb
          rw [← hevb, hch_depth eb heb]
          exact hqlvl cur (by simp) a (by simp [ha])
      · intro a ha b hb
        rcases List.mem_append.mp ha with ha1 | ha2
        · rcases List.mem_append.mp hb with hb1 | hb2
          · exact hqlvl a (by simp [ha1]) b (by simp [hb1])
          · obtain ⟨eb, heb, hevb⟩ := hchmem b hb2
            rw [← hevb, hch_depth eb heb]
            have hge : depth st1.trie cur ≤ depth st1.trie a :=
              (List.pairwise_cons.mp hqsort).1 a ha1
            omega
        · obtain ⟨ea, hea, heva⟩ := hchmem a ha2
          rcases List.mem_append.mp hb with hb1 | hb2
          · have h1 := hqlvl cur (by simp) b (by simp [hb1])
            rw [← heva, hch_depth ea hea]
            omega
          · obtain ⟨eb, heb, hevb⟩ := hchmem b hb2
            rw [← hevb, ← heva, hch_depth eb heb, hch_depth ea hea]
            omega
      · simp only [List.length_append, List.length_singleton]
        omega

/-! ## The finished automaton satisfies the table specification -/

theorem foldl_set_len (l : List (Char × Nat)) (f0 : List Nat) :
    (l.foldl (fun f p => f.set p.2 0) f0).length = f0.length := by
  induction l generalizing f0 with
  | nil => rfl
  | cons p rest ih =>
    rw [List.foldl_cons, ih, List.length_set]

theorem foldl_set_zeros (l : List (Char × Nat)) (f0 : List Nat)
    (h : ∀ x ∈ f0, x = 0) :
    ∀ x ∈ l.foldl (fun f p => f.set p.2 0) f0, x = 0 := by
  induction l generalizing f0 with
  | nil => exact h
  | cons p rest ih =>
    rw [List.foldl_cons]
    refine ih _ ?_
    intro x hx
    rcases List.mem_or_eq_of_mem_set hx with h1 | h1
    · exact h x h1
    · exact h1

theorem getD_zero_of_all {l : List Nat} (h : ∀ x ∈ l, x = 0) (v : Nat) :
    l.getD v 0 = 0 := by
  rw [getD_get?]
  rcases hg : l.get? v with _ | a
  · rfl
  · exact h a (List.get?_mem hg)

theorem failNodeSpec_depth1 {st : TrieSt} {v : Nat}
    (h : depth st.trie v = 1) : failNodeSpec st.trie v = 0 := by
  rw [depth] at h
  rw [failNodeSpec]
  rcases hs : nodeStr st.trie v with _ | ⟨c, rest⟩
  · rw [hs] at h
    simp at h
  · rw [hs] at h
    simp only [List.length_cons] at h
    have hr : rest = [] := List.eq_nil_of_length_eq_zero (by omega)
    subst hr
    rfl

theorem build_spec (ps : List (List Char)) :
    (build ps).patterns = ps ∧
    (build ps).trie = wiredTrie (build_trie ps) ∧
    (build ps).fail.length = (build_trie ps).trie.length ∧
    (build ps).output.length = (build_trie ps).trie.length ∧
    (build ps).fail.getD 0 0 = 0 ∧
    (build ps).output.getD 0 [] = (build_trie ps).output.getD 0 [] ∧
    (∀ v, 1 ≤ v → v < (build_trie ps).trie.length →
      (build ps).fail.getD v 0 = failNodeSpec (build_trie ps).trie v ∧
      (build ps).output.getD v [] =
        finalOut (build_trie ps).trie (build_trie ps).output v) := by
  obtain ⟨wf1, -, -⟩ := build_trie_spec ps
  have hfz : ∀ x ∈ ((build_trie ps).trie.getD 0 []).foldl
      (fun f p => f.set p.2 0) (build_trie ps).fail, x = 0 :=
    foldl_set_zeros _ _ wf1.hfail0
  have hqdepth : ∀ v ∈ ((build_trie ps).trie.getD 0 []).map Prod.snd,
      depth (build_trie ps).trie v = 1 := by
    intro v hv
    obtain ⟨e, he, hev⟩ := List.mem_map.mp hv
    obtain ⟨c0, v0⟩ := e
    cases hev
    have hw : wordNode (build_trie ps).trie [c0] = some v0 := by
      rw [wordNode, wordNodeFrom_single]
      exact lookupA_of_mem_nodup (wf1.hkeys 0) he
    rw [depth_of_word wf1 hw]
    rfl
  have hqbnd : ∀ v ∈ ((build_trie ps).trie.getD 0 []).map Prod.snd,
      1 ≤ v ∧ v < (build_trie ps).trie.length := by
    intro v hv
    obtain ⟨e, he, hev⟩ := List.mem_map.mp hv
    have h := wf1.hedge 0 e he
    omega
  have hres := bfs_spec wf1 ((wiredTrie (build_trie ps)).length)
    { trie := wiredTrie (build_trie ps),
      fail := ((build_trie ps).trie.getD 0 []).foldl
        (fun f p => f.set p.2 0) (build_trie ps).fail,
      output := (build_trie ps).output }
    [] (((build_trie ps).trie.getD 0 []).map Prod.snd)
    rfl
    (by
      dsimp only
      rw [foldl_set_len]
      exact wf1.hfail_len)
    wf1.hout_len
    (by simpa using rowTargets_nodup wf1 0)
    (by
      intro v hv
      exact hqbnd v (by simpa using hv))
    (by
      intro v hv
      have hv' : v ∈ ((build_trie ps).trie.getD 0 []).map Prod.snd := by simpa using hv
      refine ⟨?_, ?_⟩
      · rw [failNodeSpec_depth1 (hqdepth v hv')]
        exact getD_zero_of_all hfz v
      · show (build_trie ps).output.getD v [] = _
        rw [finalOut_low _ (by rw [hqdepth v hv'])]
    )
    (by
      exact ⟨getD_zero_of_all hfz 0, rfl⟩)
    (fun v _ _ _ => rfl)
    (by
      intro v
      constructor
      · intro hv
        have hv' : v ∈ ((build_trie ps).trie.getD 0 []).map Prod.snd := by simpa using hv
        obtain ⟨e, he, hev⟩ := List.mem_map.mp hv'
        obtain ⟨c0, v0⟩ := e
        cases hev
        exact ⟨0, Or.inr rfl, c0, he⟩
      · rintro ⟨u, hu, c0, hm⟩
        rcases hu with h | h
        · cases h
        · subst h
          have : v ∈ ((build_trie ps).trie.getD 0 []).map Prod.snd :=
            List.mem_map.mpr ⟨(c0, v), hm, rfl⟩
          simpa using this)
    (by
      refine pairwise_of_mem_pairs ?_
      intro a ha b hb
      rw [hqdepth a ha, hqdepth b hb])
    (by
      intro a ha b hb
      rw [hqdepth a ha, hqdepth b hb]
      omega)
    (by
      rw [wiredTrie_len]
      omega)
  obtain ⟨r1, r2, r3, r4, r5, r6⟩ := hres
  exact ⟨rfl, r1, r2, r3, r4, r5, r6⟩

/-! ## The built tables, node by node -/

theorem build_fail_getD (ps : List (List Char)) (v : Nat)
    (hv : v < (build_trie ps).trie.length) :
    (build ps).fail.getD v 0 = failNodeSpec (build_trie ps).trie v := by
  rcases Nat.eq_zero_or_pos v with rfl | h1
  · rw [(build_spec ps).2.2.2.2.1, failNodeSpec_zero]
  · exact ((build_spec ps).2.2.2.2.2.2 v h1 hv).1

theorem build_output_getD (ps : List (List Char)) (v : Nat)
    (hv : v < (build_trie ps).trie.length) :
    (build ps).output.getD v [] =
      finalOut (build_trie ps).trie (build_trie ps).output v := by
  rcases Nat.eq_zero_or_pos v with rfl | h1
  · rw [(build_spec ps).2.2.2.2.2.1, finalOut_zero]
  · exact ((build_spec ps).2.2.2.2.2.2 v h1 hv).2

theorem depth_pos {st : TrieSt} (wf : TrieWF st) {v : Nat} (h1 : 1 ≤ v)
    (hv : v < st.trie.length) : 1 ≤ depth st.trie v := by
  rcases hs : nodeStr st.trie v with _ | ⟨c, rest⟩
  · exfalso
    have hw := nodeStr_word wf hv
    rw [hs] at hw
    have h0 : (0 : Nat) = v := Option.some.inj hw
    omega
  · rw [depth, hs]
    simp

theorem wiredTrie_target_lt {st : TrieSt} (wf : TrieWF st) {u : Nat} {e : Char × Nat}
    (he : e ∈ (wiredTrie st).getD u []) : e.2 < st.trie.length := by
  rcases Nat.eq_zero_or_pos u with rfl | hu
  · rw [wiredTrie_root st wf.hpos] at he
    rcases wireRoot_value he with h | h
    · exact (wf.hedge 0 e h).2
    · rw [h]
      exact wf.hpos
  · rw [wiredTrie_row_ne st u (by omega)] at he
    exact (wf.hedge u e he).2

/-! ## The search state follows the longest word suffix of the scanned text -/

theorem step_spec (ps : List (List Char)) {m : List Char} {v : Nat}
    (hm : wordNode (build_trie ps).trie m = some v) (c : Char) :
    step (build ps) v c =
      (wordNode (build_trie ps).trie
        (maxWordSuffix (build_trie ps).trie (m ++ [c]))).getD 0 := by
  obtain ⟨wf1, _, _⟩ := build_trie_spec ps
  have htrie := (build_spec ps).2.1
  rw [step, htrie]
  refine walk_step_spec wf1 m.length m (Nat.le_refl _)
    (wiredTrie (build_trie ps)).length v c (build ps).fail hm ?_ ?_
  · intro w z hwz _
    exact build_fail_getD ps w (word_lt wf1 hwz)
  · have h1 := word_len_le wf1 hm
    have h2 := word_lt wf1 hm
    rw [wiredTrie_len]
    omega

theorem stateGo_spec (ps : List (List Char)) (u : List Char) :
    stateGo (build ps) 0 u =
      (wordNode (build_trie ps).trie (maxWordSuffix (build_trie ps).trie u)).getD 0 := by
  induction u using List.reverseRecOn with
  | nil => rfl
  | append_singleton xs c ih =>
    rw [stateGo_append, ih]
    obtain ⟨w, hw⟩ := Option.isSome_iff_exists.mp
      (maxWordSuffix_isWord (build_trie ps).trie xs)
    rw [hw]
    show step (build ps) w c = _
    rw [step_spec ps hw c, maxWordSuffix_compose (build_trie ps).trie xs c]

/-! ## What the final output lists contain -/

theorem finalOut_sound (ps : List (List Char)) :
    ∀ d v, depth (build_trie ps).trie v ≤ d → v < (build_trie ps).trie.length →
      ∀ k, k ∈ finalOut (build_trie ps).trie (build_trie ps).output v →
      ∃ p, ps.get? k = some p ∧ p <:+ nodeStr (build_trie ps).trie v := by
  obtain ⟨wf1, oi, _⟩ := build_trie_spec ps
  intro d
  induction d with
  | zero =>
    intro v hd hv k hk
    rw [finalOut_low (build_trie ps).output (by omega)] at hk
    exact ⟨nodeStr (build_trie ps).trie v,
      (oi v _ (nodeStr_word wf1 hv) k).mp hk, List.suffix_rfl⟩
  | succ d ih =>
    intro v hd hv k hk
    by_cases h2 : 2 ≤ depth (build_trie ps).trie v
    · rw [finalOut_unfold wf1 _ h2] at hk
      rcases List.mem_append.mp hk with h | h
      · exact ⟨nodeStr (build_trie ps).trie v,
          (oi v _ (nodeStr_word wf1 hv) k).mp h, List.suffix_rfl⟩
      · have hfw := failNodeSpec_word wf1 v
        have hlt := @failNodeSpec_depth_lt (build_trie ps) wf1 v (by omega)
        obtain ⟨p, hp, hsuf⟩ :=
          ih (failNodeSpec (build_trie ps).trie v) (by omega) (word_lt wf1 hfw) k h
        refine ⟨p, hp, ?_⟩
        rw [nodeStr_of_word wf1 hfw] at hsuf
        exact hsuf.trans ((maxWordSuffix_suffix _ _).trans (List.tail_suffix _))
    · rw [finalOut_low (build_trie ps).output (by omega)] at hk
      exact ⟨nodeStr (build_trie ps).trie v,
        (oi v _ (nodeStr_word wf1 hv) k).mp hk, List.suffix_rfl⟩

theorem finalOut_complete (ps : List (List Char)) :
    ∀ n s v, s.length ≤ n → wordNode (build_trie ps).trie s = some v →
      ∀ p k, p <:+ s → 1 ≤ p.length → ps.get? k = some p →
      ((wordNode (build_trie ps).trie p).isSome) →
      k ∈ finalOut (build_trie ps).trie (build_trie ps).output v := by
  obtain ⟨wf1, oi, _⟩ := build_trie_spec ps
  intro n
  induction n with
  | zero =>
    intro s v hn hv p k hsuf hlen hk hw
    have hs0 : s = [] := List.eq_nil_of_length_eq_zero (by omega)
    subst hs0
    rw [List.suffix_nil.mp hsuf] at hlen
    cases hlen
  | succ n ih =>
    intro s v hn hv p k hsuf hlen hk hw
    by_cases heq : p.length = s.length
    · have hps : p = s := hsuf.eq_of_length heq
      subst hps
      have hout : k ∈ (build_trie ps).output.getD v [] := (oi v p hv k).mpr hk
      by_cases h2 : 2 ≤ depth (build_trie ps).trie v
      · rw [finalOut_unfold wf1 _ h2]
        exact List.mem_append.mpr (Or.inl hout)
      · rw [finalOut_low (build_trie ps).output (by omega)]
        exact hout
    · have hplt : p.length < s.length := Nat.lt_of_le_of_ne hsuf.length_le heq
      have hdv : depth (build_trie ps).trie v = s.length := depth_of_word wf1 hv
      rw [finalOut_unfold wf1 _ (by omega)]
      refine List.mem_append.mpr (Or.inr ?_)
      have htlen : s.tail.length = s.length - 1 := List.length_tail s
      have htl : p <:+ s.tail := by
        refine suffix_of_suffix_length_le hsuf (List.tail_suffix s) ?_
        omega
      have hm : p <:+ maxWordSuffix (build_trie ps).trie s.tail :=
        suffix_of_suffix_length_le htl (maxWordSuffix_suffix _ _)
          (maxWordSuffix_max htl hw)
      have hfw := failNodeSpec_word wf1 v
      rw [nodeStr_of_word wf1 hv] at hfw
      have hmlen : (maxWordSuffix (build_trie ps).trie s.tail).length ≤ s.tail.length :=
        (maxWordSuffix_suffix _ _).length_le
      exact ih (maxWordSuffix (build_trie ps).trie s.tail) _ (by omega) hfw p k hm hlen hk hw

/-- C2: soundness of search.  Every pair emitted by `search` has a
non-negative integer start offset `s`, a pattern index that addresses a
pattern `p` of the input list, and `p` occurs in the text at offset `s`:
`s + len(p) <= len(t)` and `t[s : s + len(p)] = p` exactly. -/
theorem C2_soundness (ps : List (List Char)) (t : List Char) (m : Int × Nat)
    (hm : m ∈ search (build ps) t) :
    ∃ s : Nat, ∃ p : List Char,
      m.1 = (s : Int) ∧ ps.get? m.2 = some p ∧ occursAt t p s := by
  obtain ⟨wf1, oi, _⟩ := build_trie_spec ps
  have hm' : m ∈ searchGo (build ps) 0 0 t := hm
  obtain ⟨i, hi, hmem⟩ := mem_searchGo.mp hm'
  obtain ⟨k, hk, hme⟩ := mem_emitAt.mp hmem
  rw [stateGo_spec ps (t.take (i + 1))] at hk
  obtain ⟨w, hw⟩ := Option.isSome_iff_exists.mp
    (maxWordSuffix_isWord (build_trie ps).trie (t.take (i + 1)))
  rw [hw, Option.getD_some] at hk
  have hwlt : w < (build_trie ps).trie.length := word_lt wf1 hw
  rw [build_output_getD ps w hwlt] at hk
  obtain ⟨p, hp, hsuf⟩ := finalOut_sound ps (depth (build_trie ps).trie w) w
    (Nat.le_refl _) hwlt k hk
  rw [nodeStr_of_word wf1 hw] at hsuf
  have hsuf2 : p <:+ t.take (i + 1) := hsuf.trans (maxWordSuffix_suffix _ _)
  have htk : (t.take (i + 1)).length = i + 1 := by
    rw [List.length_take]
    omega
  have hpl : p.length ≤ i + 1 := by
    have := hsuf2.length_le
    omega
  obtain ⟨a, ha⟩ := hsuf2
  have hal : a.length = i + 1 - p.length := by
    have hlen := congrArg List.length ha
    simp only [List.length_append] at hlen
    omega
  have hgd : (build ps).patterns.getD k [] = p := by
    rw [(build_spec ps).1, getD_get?, hp]
    rfl
  refine ⟨i + 1 - p.length, p, ?_, ?_, ?_, ?_⟩
  · rw [hme]
    show ((0 + i : Nat) : Int) - (((build ps).patterns.getD k []).length : Int) + 1 =
      ((i + 1 - p.length : Nat) : Int)
    rw [hgd]
    omega
  · rw [hme]
    exact hp
  · omega
  · have ht : t = a ++ (p ++ t.drop (i + 1)) := by
      conv_lhs => rw [← List.take_append_drop (i + 1) t]
      rw [← ha, List.append_assoc]
    rw [ht, ← hal, List.drop_left, List.take_left]

/-- C2 witness: the soundness theorem applied to the concrete match that
searching the text "a" for the single pattern "a" emits. -/
theorem C2_soundness_witness :
    (((0 : Int), 0) : Int × Nat) ∈ search (build [['a']]) ['a'] ∧
    (∃ s : Nat, ∃ p : List Char,
      (((0 : Int), 0) : Int × Nat).1 = (s : Int) ∧
      ([['a']] : List (List Char)).get? (((0 : Int), 0) : Int × Nat).2 = some p ∧
      occursAt ['a'] p s) :=
  ⟨by decide, C2_soundness [['a']] ['a'] ((0 : Int), 0) (by decide)⟩

/-- C1 counterexample: the empty pattern occurs in the text "a" at offset 0,
but search over the pattern list ["", "a"] never emits the pair (0, 0): the
claimed completeness fails for empty patterns (the source emits their
matches with start offset position+1 and only at states whose chained
output reaches the root). -/
theorem C1_counterexample :
    ([[], ['a']] : List (List Char)).get? 0 = some [] ∧
    occursAt ['a'] [] 0 ∧
    (((0 : Int), 0) : Int × Nat) ∉ search (build [[], ['a']]) ['a'] :=
  ⟨rfl, ⟨by decide, rfl⟩, by decide⟩

/-- C1 amended: completeness holds for every non-empty pattern: if pattern
`p` of index `k` occurs in `t` at offset `s`, then search emits `(s, k)`. -/
theorem C1_completeness_amended (ps : List (List Char)) (t : List Char)
    (k : Nat) (p : List Char) (hk : ps.get? k = some p) (hne : p ≠ [])
    (s : Nat) (hocc : occursAt t p s) :
    (((s : Int), k) : Int × Nat) ∈ search (build ps) t := by
  obtain ⟨wf1, oi, wi⟩ := build_trie_spec ps
  obtain ⟨hle, heq⟩ := hocc
  have hw : (wordNode (build_trie ps).trie p).isSome := wi k p hk
  have hpl : 1 ≤ p.length := List.length_pos.mpr hne
  have hi : s + p.length - 1 < t.length := by omega
  show (((s : Int), k) : Int × Nat) ∈ searchGo (build ps) 0 0 t
  refine mem_searchGo.mpr ⟨s + p.length - 1, hi, ?_⟩
  have hiu : s + p.length - 1 + 1 = s + p.length := by omega
  rw [stateGo_spec ps, hiu]
  have hu : t.take (s + p.length) = t.take s ++ p := by
    rw [List.take_add, heq]
  rw [hu]
  have hpu : p <:+ t.take s ++ p := ⟨t.take s, rfl⟩
  have hml := maxWordSuffix_max hpu hw
  have hms := maxWordSuffix_suffix (build_trie ps).trie (t.take s ++ p)
  have hpm : p <:+ maxWordSuffix (build_trie ps).trie (t.take s ++ p) :=
    suffix_of_suffix_length_le hpu hms hml
  obtain ⟨w, hwm⟩ := Option.isSome_iff_exists.mp
    (maxWordSuffix_isWord (build_trie ps).trie (t.take s ++ p))
  rw [hwm, Option.getD_some]
  have hwlt := word_lt wf1 hwm
  refine mem_emitAt.mpr ⟨k, ?_, ?_⟩
  · rw [build_output_getD ps w hwlt]
    exact finalOut_complete ps
      (maxWordSuffix (build_trie ps).trie (t.take s ++ p)).length
      _ w (Nat.le_refl _) hwm p k hpm hpl hk hw
  · have hgd : (build ps).patterns.getD k [] = p := by
      rw [(build_spec ps).1, getD_get?, hk]
      rfl
    rw [hgd]
    have hpos : (0 : Nat) + (s + p.length - 1) = s + p.length - 1 := by omega
    rw [hpos]
    have hfst : ((s : Int)) = ((s + p.length - 1 : Nat) : Int) - (p.length : Int) + 1 := by
      omega
    exact congrArg (fun x : Int => ((x, k) : Int × Nat)) hfst

/-- C1 amended witness: the pattern "a" occurs at offset 0 of the text "a"
and the corresponding match is emitted. -/
theorem C1_completeness_amended_witness :
    ([['a']] : List (List Char)).get? 0 = some ['a'] ∧
    (['a'] : List Char) ≠ [] ∧ occursAt ['a'] ['a'] 0 ∧
    (((0 : Int), 0) : Int × Nat) ∈ search (build [['a']]) ['a'] :=
  ⟨rfl, by decide, ⟨by decide, rfl⟩,
    C1_completeness_amended [['a']] ['a'] 0 ['a'] rfl (by decide) 0 ⟨by decide, rfl⟩⟩

/-- C6 counterexample: with pattern list ["", "a"], node 1 (the node of
"a") has failure link 0, the root's output contains the empty pattern's
index 0, but node 1's output does not: the claimed superset invariant
fails, because the seeding loop of build_fail_links never chains outputs
into depth-1 nodes. -/
theorem C6_counterexample :
    (build [[], ['a']]).fail.getD 1 0 = 0 ∧
    (0 : Nat) ∈ (build [[], ['a']]).output.getD 0 [] ∧
    (0 : Nat) ∉ (build [[], ['a']]).output.getD 1 [] :=
  ⟨by decide, by decide, by decide⟩

/-- C6 amended: if the pattern list contains no empty pattern, then for
every node `v` the output list of `v`'s failure target is contained in the
output list of `v`. -/
theorem C6_output_superset_amended (ps : List (List Char))
    (hne : ([] : List Char) ∉ ps) (v : Nat) (hv : v < (build ps).trie.length)
    (k : Nat) (hk : k ∈ (build ps).output.getD ((build ps).fail.getD v 0) []) :
    k ∈ (build ps).output.getD v [] := by
  obtain ⟨wf1, oi, _⟩ := build_trie_spec ps
  have hv1 : v < (build_trie ps).trie.length := by
    rw [(build_spec ps).2.1, wiredTrie_len] at hv
    exact hv
  have hroot : (build_trie ps).output.getD 0 [] = [] := by
    rcases hr : (build_trie ps).output.getD 0 [] with _ | ⟨x, xs⟩
    · rfl
    · exfalso
      have hx : x ∈ (build_trie ps).output.getD 0 [] := by
        rw [hr]
        exact List.mem_cons_self x xs
      exact hne (List.get?_mem ((oi 0 [] rfl x).mp hx))
  rcases Nat.eq_zero_or_pos v with rfl | h1
  · rw [(build_spec ps).2.2.2.2.1] at hk
    exact hk
  · rw [build_fail_getD ps v hv1] at hk
    have hdp : 1 ≤ depth (build_trie ps).trie v := depth_pos wf1 h1 hv1
    rw [build_output_getD ps v hv1]
    by_cases h2 : 2 ≤ depth (build_trie ps).trie v
    · have hfw := failNodeSpec_word wf1 v
      have hflt := word_lt wf1 hfw
      rw [build_output_getD ps _ hflt] at hk
      rw [finalOut_unfold wf1 _ h2]
      exact List.mem_append.mpr (Or.inr hk)
    · have hd1 : depth (build_trie ps).trie v = 1 := by omega
      rw [failNodeSpec_depth1 hd1, (build_spec ps).2.2.2.2.2.1, hroot] at hk
      cases hk

/-- C6 amended witness: with patterns ["a","aa"], the node of "aa" (id 2)
fails to the node of "a" (id 1) and inherits pattern index 0 from it. -/
theorem C6_output_superset_amended_witness :
    (([] : List Char) ∉ ([['a'], ['a', 'a']] : List (List Char))) ∧
    2 < (build [['a'], ['a', 'a']]).trie.length ∧
    (0 : Nat) ∈ (build [['a'], ['a', 'a']]).output.getD
      ((build [['a'], ['a', 'a']]).fail.getD 2 0) [] ∧
    (0 : Nat) ∈ (build [['a'], ['a', 'a']]).output.getD 2 [] :=
  ⟨by decide, by decide, by decide,
    C6_output_superset_amended [['a'], ['a', 'a']] (by decide) 2 (by decide) 0 (by decide)⟩

/-- C9 counterexample: with pattern list ["", "a"] and text "a", position 0
is scanned, the empty pattern's index 0 sits in the root's output, yet no
match at all is emitted for index 0 — the empty pattern does not produce a
match at every scanned position. -/
theorem C9_counterexample :
    (0 : Nat) ∈ (build [[], ['a']]).output.getD 0 [] ∧
    0 < (['a'] : List Char).length ∧
    ∀ m ∈ search (build [[], ['a']]) ['a'], m.2 ≠ 0 :=
  ⟨by decide, by decide, by decide⟩

theorem getLast_snoc {α : Type} (l : List α) (a : α) : (l ++ [a]).getLast? = some a := by
  simp

/-- The exact criterion for an empty pattern's index `k` to sit in a node's
chained output list: for a node reached by the non-empty word `u ++ [c]`,
the failure chain inherits the root's output (and with it `k`) precisely
when no length-one suffix stops the chain at a depth-1 node, i.e. when `[c]`
is not itself a trie word (every non-empty suffix of `u ++ [c]` ends in
`c`). -/
theorem finalOut_empty_iff (ps : List (List Char)) (k : Nat)
    (hk : ps.get? k = some []) :
    ∀ n u c v, u.length < n →
      wordNode (build_trie ps).trie (u ++ [c]) = some v →
      (k ∈ finalOut (build_trie ps).trie (build_trie ps).output v ↔
        isWord (build_trie ps).trie [c] = false) := by
  obtain ⟨wf1, oi, _⟩ := build_trie_spec ps
  have hroot1 : k ∈ (build_trie ps).output.getD 0 [] := (oi 0 [] rfl k).mpr hk
  intro n
  induction n with
  | zero =>
    intro u c v hn hv
    omega
  | succ n ih =>
    intro u c v hn hv
    have hnotout : k ∉ (build_trie ps).output.getD v [] := by
      intro hkv
      have h1 := (oi v (u ++ [c]) hv k).mp hkv
      rw [hk] at h1
      have h2 := congrArg List.length (Option.some.inj h1)
      simp at h2
    have hdv : depth (build_trie ps).trie v = u.length + 1 := by
      rw [depth_of_word wf1 hv]
      simp
    rcases u with _ | ⟨x, xs⟩
    · -- depth-1 node: no inheritance, and [c] is the node word itself
      have hd1 : depth (build_trie ps).trie v ≤ 1 := by
        rw [hdv]
        simp
      rw [finalOut_low (build_trie ps).output hd1]
      have hw1 : wordNode (build_trie ps).trie [c] = some v := hv
      constructor
      · intro hkv
        exact absurd hkv hnotout
      · intro hcw
        exfalso
        have h3 : isWord (build_trie ps).trie [c] = true := by
          unfold isWord
          rw [hw1]
          rfl
        rw [h3] at hcw
        cases hcw
    · -- depth at least 2: one step along the failure chain
      simp only [List.length_cons] at hn
      have hd2 : 2 ≤ depth (build_trie ps).trie v := by
        rw [hdv]
        simp only [List.length_cons]
        omega
      rw [finalOut_unfold wf1 _ hd2, List.mem_append, or_iff_right hnotout]
      have hns : nodeStr (build_trie ps).trie v = (x :: xs) ++ [c] :=
        nodeStr_of_word wf1 hv
      have hfw := failNodeSpec_word wf1 v
      rw [hns, List.cons_append, List.tail_cons] at hfw
      rcases List.eq_nil_or_concat
          (maxWordSuffix (build_trie ps).trie (xs ++ [c])) with hm0 | ⟨u1, c1, hm1⟩
      · -- the chain jumps straight to the root, which holds k
        rw [hm0] at hfw
        have hf0 : failNodeSpec (build_trie ps).trie v = 0 :=
          (Option.some.inj hfw).symm
        rw [hf0, finalOut_zero]
        constructor
        · intro _
          cases hb2 : isWord (build_trie ps).trie [c] with
          | false => rfl
          | true =>
            exfalso
            have hcs : [c] <:+ xs ++ [c] := ⟨xs, rfl⟩
            have hle := maxWordSuffix_max hcs
              (show (wordNode (build_trie ps).trie [c]).isSome from hb2)
            rw [hm0] at hle
            simp at hle
        · intro _
          exact hroot1
      · -- the chain step lands on another node reached by a word ending in c
        rw [List.concat_eq_append] at hm1
        have hsm : u1 ++ [c1] <:+ xs ++ [c] := by
          rw [← hm1]
          exact maxWordSuffix_suffix _ _
        obtain ⟨a, ha⟩ := hsm
        have hc1 : c1 = c := by
          have h4 := congrArg List.getLast? ha
          rw [← List.append_assoc, getLast_snoc, getLast_snoc] at h4
          exact Option.some.inj h4
        have hm1len : (u1 ++ [c1]).length ≤ (xs ++ [c]).length := by
          rw [← hm1]
          exact (maxWordSuffix_suffix _ _).length_le
        simp only [List.length_append, List.length_singleton] at hm1len
        rw [hm1] at hfw
        cases hc1
        exact ih u1 c (failNodeSpec (build_trie ps).trie v) (by omega) hfw

/-- C9 amended: build does accept an empty pattern without error and records
its index `k` in the root's output list; search then reports its occurrences
with start offset `i + 1` (not `i`), and emits `(i + 1, k)` exactly at those
scanned positions `i` whose text symbol `t[i]` is not itself a one-symbol
trie word (the first symbol of some pattern) — not at every position. -/
theorem C9_empty_pattern_amended (ps : List (List Char)) (k : Nat)
    (hk : ps.get? k = some []) :
    k ∈ (build ps).output.getD 0 [] ∧
    ∀ t : List Char, ∀ i : Nat, ∀ hi : i < t.length,
      ((((i : Int) + 1, k)) : Int × Nat) ∈ search (build ps) t ↔
        isWord (build_trie ps).trie [t.get ⟨i, hi⟩] = false := by
  obtain ⟨wf1, oi, _⟩ := build_trie_spec ps
  have hroot1 : k ∈ (build_trie ps).output.getD 0 [] := (oi 0 [] rfl k).mpr hk
  have hroot : k ∈ (build ps).output.getD 0 [] := by
    rw [(build_spec ps).2.2.2.2.2.1]
    exact hroot1
  refine ⟨hroot, ?_⟩
  intro t i hi
  have hlen0 : ((build ps).patterns.getD k []).length = 0 := by
    rw [(build_spec ps).1, getD_get?, hk]
    rfl
  have hmem_iff : ((((i : Int) + 1, k)) : Int × Nat) ∈ search (build ps) t ↔
      k ∈ (build ps).output.getD (stateGo (build ps) 0 (t.take (i + 1))) [] := by
    constructor
    · intro hm
      have hm2 : ((((i : Int) + 1, k)) : Int × Nat) ∈ searchGo (build ps) 0 0 t := hm
      obtain ⟨j, hj, hmem⟩ := mem_searchGo.mp hm2
      obtain ⟨k2, hk2, heq⟩ := mem_emitAt.mp hmem
      have hsnd : k = k2 := congrArg Prod.snd heq
      cases hsnd
      have hfst : (i : Int) + 1 =
          ((0 + j : Nat) : Int) - (((build ps).patterns.getD k []).length : Int) + 1 :=
        congrArg Prod.fst heq
      rw [hlen0] at hfst
      have hij : i = j := by omega
      cases hij
      exact hk2
    · intro hout
      show ((((i : Int) + 1, k)) : Int × Nat) ∈ searchGo (build ps) 0 0 t
      refine mem_searchGo.mpr ⟨i, hi, mem_emitAt.mpr ⟨k, hout, ?_⟩⟩
      have hfst : (i : Int) + 1 =
          ((0 + i : Nat) : Int) - (((build ps).patterns.getD k []).length : Int) + 1 := by
        rw [hlen0]
        omega
      exact congrArg (fun x : Int => ((x, k) : Int × Nat)) hfst
  rw [hmem_iff, stateGo_spec ps]
  obtain ⟨w, hw⟩ := Option.isSome_iff_exists.mp
    (maxWordSuffix_isWord (build_trie ps).trie (t.take (i + 1)))
  rw [hw, Option.getD_some, build_output_getD ps w (word_lt wf1 hw)]
  have htake : t.take (i + 1) = t.take i ++ [t.get ⟨i, hi⟩] := by
    rw [List.take_succ, List.getElem?_eq_getElem hi]
    rfl
  rcases List.eq_nil_or_concat
      (maxWordSuffix (build_trie ps).trie (t.take (i + 1))) with hm0 | ⟨u1, c1, hm1⟩
  · -- the state is the root: k is reported, and t[i] heads no pattern
    rw [hm0] at hw
    have hw0 : 0 = w := Option.some.inj hw
    rw [← hw0, finalOut_zero]
    constructor
    · intro _
      cases hb2 : isWord (build_trie ps).trie [t.get ⟨i, hi⟩] with
      | false => rfl
      | true =>
        exfalso
        have hcs : [t.get ⟨i, hi⟩] <:+ t.take (i + 1) := by
          rw [htake]
          exact ⟨t.take i, rfl⟩
        have hle := maxWordSuffix_max hcs
          (show (wordNode (build_trie ps).trie [t.get ⟨i, hi⟩]).isSome from hb2)
        rw [hm0] at hle
        simp at hle
    · intro _
      exact hroot1
  · -- the state is a non-root node whose word ends in t[i]
    rw [List.concat_eq_append] at hm1
    have hsm : u1 ++ [c1] <:+ t.take (i + 1) := by
      rw [← hm1]
      exact maxWordSuffix_suffix _ _
    obtain ⟨a, ha⟩ := hsm
    rw [htake] at ha
    have hc1 : c1 = t.get ⟨i, hi⟩ := by
      have h4 := congrArg List.getLast? ha
      rw [← List.append_assoc, getLast_snoc, getLast_snoc] at h4
      exact Option.some.inj h4
    rw [hm1] at hw
    rw [← hc1]
    exact finalOut_empty_iff ps k hk (u1.length + 1) u1 c1 w (by omega) hw

/-- C9 amended witness: the empty pattern (index 0) next to the pattern
"ab", searched in the text "ab": the symbol at position 1 is no pattern's
first symbol, so the zero-length match (2, 0) is emitted there — even
though the state after position 1 is the node of "ab", not the root. -/
theorem C9_empty_pattern_amended_witness :
    (0 : Nat) ∈ (build [[], ['a', 'b']]).output.getD 0 [] ∧
    ((((1 : Nat) : Int) + 1, 0) : Int × Nat) ∈ search (build [[], ['a', 'b']]) ['a', 'b'] := by
  have h := C9_empty_pattern_amended [[], ['a', 'b']] 0 rfl
  exact ⟨h.1, (h.2 ['a', 'b'] 1 (by decide)).mpr (by decide)⟩

/-! ## The checked search never fails on a built automaton -/

theorem walkFailE_succ (trie : List (List (Char × Nat))) (fail : List Nat)
    (fuel s : Nat) (c : Char) :
    walkFailE trie fail (fuel + 1) s c =
      if s = 0 then some s
      else
        match trie.get? s with
        | none => none
        | some row =>
          if (lookupA row c).isSome then some s
          else
            match fail.get? s with
            | none => none
            | some s' => walkFailE trie fail fuel s' c := rfl

theorem walkFail_lt (ps : List (List Char)) :
    ∀ fuel s c, s < (build_trie ps).trie.length →
      walkFail (build ps).trie (build ps).fail fuel s c < (build_trie ps).trie.length := by
  obtain ⟨wf1, _, _⟩ := build_trie_spec ps
  intro fuel
  induction fuel with
  | zero =>
    intro s c hs
    exact hs
  | succ f ih =>
    intro s c hs
    rw [walkFail_succ]
    by_cases hcond : s ≠ 0 ∧ lookupA ((build ps).trie.getD s []) c = none
    · rw [if_pos hcond]
      refine ih _ c ?_
      rw [build_fail_getD ps s hs]
      exact word_lt wf1 (failNodeSpec_word wf1 s)
    · rw [if_neg hcond]
      exact hs

theorem walkFailE_eq (ps : List (List Char)) :
    ∀ fuel s c, s < (build_trie ps).trie.length →
      depth (build_trie ps).trie s < fuel →
      walkFailE (build ps).trie (build ps).fail fuel s c =
        some (walkFail (build ps).trie (build ps).fail fuel s c) := by
  obtain ⟨wf1, _, _⟩ := build_trie_spec ps
  have hlen : (build ps).trie.length = (build_trie ps).trie.length := by
    rw [(build_spec ps).2.1, wiredTrie_len]
  have hflen : (build ps).fail.length = (build_trie ps).trie.length :=
    (build_spec ps).2.2.1
  intro fuel
  induction fuel with
  | zero =>
    intro s c hs hd
    omega
  | succ f ih =>
    intro s c hs hd
    by_cases h0 : s = 0
    · subst h0
      rw [walkFailE_succ, if_pos rfl, walkFail_succ,
        if_neg (fun h => h.1 rfl)]
    · have hrow : (build ps).trie.get? s = some ((build ps).trie.getD s []) :=
        get?_eq_some_getD [] (by omega)
      rw [walkFailE_succ, if_neg h0, hrow]
      by_cases hlk : (lookupA ((build ps).trie.getD s []) c).isSome
      · rw [walkFail_succ, if_neg (fun h => by rw [h.2] at hlk; cases hlk)]
        simp only [if_pos hlk]
      · have hnone : lookupA ((build ps).trie.getD s []) c = none :=
          Option.not_isSome_iff_eq_none.mp hlk
      /- the walk recurses: the failure entry is in range and strictly
         decreases the depth, so the induction hypothesis applies -/
        have hget : (build ps).fail.get? s = some ((build ps).fail.getD s 0) :=
          get?_eq_some_getD 0 (by omega)
        rw [walkFail_succ, if_pos ⟨h0, hnone⟩]
        simp only [if_neg hlk, hget]
        have hfs : (build ps).fail.getD s 0 = failNodeSpec (build_trie ps).trie s :=
          build_fail_getD ps s hs
        have hdpos : 1 ≤ depth (build_trie ps).trie s :=
          depth_pos wf1 (by omega) hs
        have hdlt := @failNodeSpec_depth_lt (build_trie ps) wf1 s hdpos
        refine ih _ c ?_ ?_
        · rw [hfs]
          exact word_lt wf1 (failNodeSpec_word wf1 s)
        · rw [hfs]
          omega

theorem output_keys_valid (ps : List (List Char)) (v : Nat)
    (hv : v < (build_trie ps).trie.length) :
    ∀ k ∈ (build ps).output.getD v [], (ps.get? k).isSome := by
  intro k hk
  rw [build_output_getD ps v hv] at hk
  obtain ⟨p, hp, _⟩ :=
    finalOut_sound ps (depth (build_trie ps).trie v) v (Nat.le_refl _) hv k hk
  rw [hp]
  rfl

theorem emitListE_cons (patterns : List (List Char)) (pos k : Nat) (rest : List Nat) :
    emitListE patterns pos (k :: rest) =
      match patterns.get? k with
      | none => none
      | some p =>
        match emitListE patterns pos rest with
        | none => none
        | some ms => some (((pos : Int) - (p.length : Int) + 1, k) :: ms) := rfl

theorem emitListE_eq (patterns : List (List Char)) (pos : Nat) :
    ∀ outs : List Nat, (∀ k ∈ outs, (patterns.get? k).isSome) →
      emitListE patterns pos outs =
        some (outs.map
          (fun k => ((pos : Int) - ((patterns.getD k []).length : Int) + 1, k))) := by
  intro outs
  induction outs with
  | nil =>
    intro h
    rfl
  | cons k rest ih =>
    intro h
    obtain ⟨p, hp⟩ := Option.isSome_iff_exists.mp (h k (List.mem_cons_self k rest))
    have hrest := ih (fun a ha => h a (List.mem_cons_of_mem k ha))
    simp only [emitListE_cons, hp, hrest, List.map_cons]
    have hgd : patterns.getD k [] = p := by
      rw [getD_get?, hp]
      rfl
    rw [hgd]

theorem searchGoE_cons (ac : AC) (node pos : Nat) (c : Char) (rest : List Char) :
    searchGoE ac node pos (c :: rest) =
      match walkFailE ac.trie ac.fail ac.trie.length node c with
      | none => none
      | some stop =>
        match ac.trie.get? stop with
        | none => none
        | some row =>
          let node' := (lookupA row c).getD 0
          match ac.output.get? node' with
          | none => none
          | some outs =>
            match emitListE ac.patterns pos outs with
            | none => none
            | some ems =>
              match searchGoE ac node' (pos + 1) rest with
              | none => none
              | some ms => some (ems ++ ms) := rfl

theorem searchGoE_eq (ps : List (List Char)) :
    ∀ t node pos, node < (build_trie ps).trie.length →
      searchGoE (build ps) node pos t = some (searchGo (build ps) node pos t) := by
  obtain ⟨wf1, _, _⟩ := build_trie_spec ps
  have hlen : (build ps).trie.length = (build_trie ps).trie.length := by
    rw [(build_spec ps).2.1, wiredTrie_len]
  have holen : (build ps).output.length = (build_trie ps).trie.length :=
    (build_spec ps).2.2.2.1
  intro t
  induction t with
  | nil =>
    intro node pos _
    rfl
  | cons c rest ih =>
    intro node pos hnode
    have hdep : depth (build_trie ps).trie node < (build ps).trie.length := by
      have h1 : depth (build_trie ps).trie node ≤ node := by
        rw [depth_of_word wf1 (nodeStr_word wf1 hnode)]
        exact word_len_le wf1 (nodeStr_word wf1 hnode)
      omega
    have hw := walkFailE_eq ps (build ps).trie.length node c hnode hdep
    have hstop : walkFail (build ps).trie (build ps).fail (build ps).trie.length node c <
        (build_trie ps).trie.length :=
      walkFail_lt ps _ node c hnode
    have hrow : (build ps).trie.get?
        (walkFail (build ps).trie (build ps).fail (build ps).trie.length node c) =
        some ((build ps).trie.getD
          (walkFail (build ps).trie (build ps).fail (build ps).trie.length node c) []) :=
      get?_eq_some_getD [] (by omega)
    have hn' : (lookupA ((build ps).trie.getD
        (walkFail (build ps).trie (build ps).fail (build ps).trie.length node c) []) c).getD 0 <
        (build_trie ps).trie.length := by
      rcases hlk : lookupA ((build ps).trie.getD
          (walkFail (build ps).trie (build ps).fail (build ps).trie.length node c) []) c with _ | w
      · exact wf1.hpos
      · have hmem := lookupA_mem hlk
        rw [(build_spec ps).2.1] at hmem
        exact wiredTrie_target_lt wf1 hmem
    have houts : (build ps).output.get? ((lookupA ((build ps).trie.getD
        (walkFail (build ps).trie (build ps).fail (build ps).trie.length node c) []) c).getD 0) =
        some ((build ps).output.getD ((lookupA ((build ps).trie.getD
          (walkFail (build ps).trie (build ps).fail (build ps).trie.length node c) []) c).getD 0) []) :=
      get?_eq_some_getD [] (by omega)
    have hvalid : ∀ k ∈ (build ps).output.getD ((lookupA ((build ps).trie.getD
        (walkFail (build ps).trie (build ps).fail (build ps).trie.length node c) []) c).getD 0) [],
        ((build ps).patterns.get? k).isSome := by
      rw [(build_spec ps).1]
      exact output_keys_valid ps _ hn'
    have hemit := emitListE_eq (build ps).patterns pos _ hvalid
    have hrec := ih ((lookupA ((build ps).trie.getD
      (walkFail (build ps).trie (build ps).fail (build ps).trie.length node c) []) c).getD 0)
      (pos + 1) hn'
    simp only [searchGoE_cons, hw, hrow, houts, hemit, hrec]
    simp only [searchGo, emitAt, step]

/-- C8 (confirmed): searching a built automaton is total — the fully
bounds-checked, fuel-checked interpretation of `search` returns `some`
of the plain result on every automaton produced by `build` and every text,
and search of the empty text returns the empty match list. -/
theorem C8_search_total (ps : List (List Char)) (t : List Char) :
    searchE (build ps) t = some (search (build ps) t) ∧
    search (build ps) [] = [] := by
  refine ⟨?_, rfl⟩
  show searchGoE (build ps) 0 0 t = some (searchGo (build ps) 0 0 t)
  exact searchGoE_eq ps t 0 0 (build_trie_len_pos ps)

end AhoCorasick
